import Mathlib

/-!
Shallow embedding of `libpathod/language.py` (the pathod traffic-crafting
mini-language): the value/token AST, byte generators, the resolution pipeline
of `Request.resolve` / `Response.resolve`, the emission engine `write_values`,
and the `spec()` serializers with the parser fragments needed for the
round-trip claims.

Python byte strings are modelled as Lean `String`s (each `Char` one octet for
the inputs considered).  Process-global ambient state of the source — the
`random` module, the filesystem touched by `os.path` / `mmap`, and external
reference data from `netlib`/`utils` that is not under `src/` — is modelled as
explicit fields of `Settings` (respectively as clearly marked definitions
`Modelled from the spec:`).
-/

namespace Pathod

/-- Error kinds raised by the source: `RenderError`, its subclass
`FileAccessDenied`, Python `AttributeError` (attribute access on `None`),
and `ValueError`/`KeyError` style failures (e.g. unknown size unit). -/
inductive PErr
  | renderError
  | fileAccessDenied
  | attributeError
  | valueError
deriving DecidableEq, Repr

instance {ε α : Type} [DecidableEq ε] [DecidableEq α] : DecidableEq (Except ε α) :=
  fun a b =>
    match a, b with
    | .ok x, .ok y =>
      match decEq x y with
      | .isTrue h => .isTrue (by rw [h])
      | .isFalse h => .isFalse (by intro hc; cases hc; exact h rfl)
    | .error x, .error y =>
      match decEq x y with
      | .isTrue h => .isTrue (by rw [h])
      | .isFalse h => .isFalse (by intro hc; cases hc; exact h rfl)
    | .ok _, .error _ => .isFalse (by intro hc; cases hc)
    | .error _, .ok _ => .isFalse (by intro hc; cases hc)

/-- Model of the `os.path`/filesystem surface used by `ValueFile.get_generator`
(Python standard library, external to the repository): `expanduser`,
the composite `normpath(abspath(join(base, p)))`, `isfile`, and the bytes
`mmap` would expose for a path. -/
structure OsModel where
  expanduser : String → String
  normAbsJoin : String → String → String
  isfile : String → Bool
  contents : String → String

/-- `language.Settings` plus explicit models of the process-global ambient
state the source reads: `os` (filesystem), `randrange` (for
`random.randrange`) and `genRandom` (the bytes a `RandomGenerator` of a given
datatype and length realizes). -/
structure Settings where
  staticdir : Option String
  unconstrained_file_access : Bool
  request_host : Option String
  websocket_key : Option String
  os : OsModel
  randrange : Nat → Nat
  genRandom : String → Nat → String

/-- ASCII lower-casing of one byte, as Python 2 `str.lower()` does. -/
def lowerChar (c : Char) : Char :=
  if 'A' ≤ c ∧ c ≤ 'Z' then Char.ofNat (c.toNat + 32) else c

/-- Python 2 `s.lower()` on a byte string. -/
def pyLower (s : String) : String :=
  String.mk (s.toList.map lowerChar)

/-- ASCII upper-casing of one byte, as Python 2 `str.upper()` does. -/
def upperChar (c : Char) : Char :=
  if 'a' ≤ c ∧ c ≤ 'z' then Char.ofNat (c.toNat - 32) else c

/-- Python 2 `s.upper()` on a byte string. -/
def pyUpper (s : String) : String :=
  String.mk (s.toList.map upperChar)

/-- Python truthiness of an optional string (`None` and `""` are falsy),
as used by `if not settings.staticdir` etc. -/
def pyTruthy (o : Option String) : Bool :=
  match o with
  | none => false
  | some s => !s.isEmpty

/-- Decimal digit characters of a natural number, fuel-driven so that it
reduces in the kernel; models Python `str(n)` for a nonnegative int. -/
def natDigitsGo (n : Nat) : Nat → List Char → List Char
  | 0, acc => acc
  | f + 1, acc =>
    let acc' := Char.ofNat (48 + n % 10) :: acc
    if n < 10 then acc' else natDigitsGo (n / 10) f acc'

def natDigits (n : Nat) : List Char :=
  natDigitsGo n (n + 1) []

/-- Python `str(n)` for a natural number. -/
def pyNatStr (n : Nat) : String :=
  String.mk (natDigits n)

def hexDigitChar (n : Nat) : Char :=
  if n < 10 then Char.ofNat (48 + n) else Char.ofNat (87 + n)

/-- Python 2 `s.encode("string_escape")` on one byte: backslash, the single
quote, `\n`, `\r`, `\t` get two-character escapes, other non-printable bytes
a `\xhh` escape, the double quote and printable bytes stand for themselves. -/
def escCharPy (c : Char) : List Char :=
  if c = '\\' then ['\\', '\\']
  else if c = Char.ofNat 39 then ['\\', Char.ofNat 39]
  else if c = Char.ofNat 10 then ['\\', 'n']
  else if c = Char.ofNat 13 then ['\\', 'r']
  else if c = Char.ofNat 9 then ['\\', 't']
  else if c.toNat < 32 ∨ 126 < c.toNat then
    ['\\', 'x', hexDigitChar (c.toNat / 16 % 16), hexDigitChar (c.toNat % 16)]
  else [c]

/-- Python 2 `s.encode("string_escape")`. -/
def pyEscape (s : String) : String :=
  String.mk (s.toList.map escCharPy).flatten

def isHexChar (c : Char) : Bool :=
  c.isDigit ∨ ('a' ≤ c ∧ c ≤ 'f') ∨ ('A' ≤ c ∧ c ≤ 'F')

def hexVal (c : Char) : Nat :=
  if c.isDigit then c.toNat - 48
  else if 'a' ≤ c ∧ c ≤ 'f' then c.toNat - 87
  else c.toNat - 55

/-- Python 2 `s.decode("string_escape")` on a character list.  Recognized
escapes are decoded; an unrecognized escape keeps both characters, and a
trailing backslash is kept (the source would raise there; that case is outside
the image of `escCharPy` and never reached by the development). -/
def unescChars : List Char → List Char
  | [] => []
  | '\\' :: 'x' :: a :: b :: t =>
    if isHexChar a ∧ isHexChar b then Char.ofNat (hexVal a * 16 + hexVal b) :: unescChars t
    else '\\' :: 'x' :: unescChars (a :: b :: t)
  | '\\' :: c :: t =>
    if c = '\\' then '\\' :: unescChars t
    else if c = Char.ofNat 39 then Char.ofNat 39 :: unescChars t
    else if c = '"' then '"' :: unescChars t
    else if c = 'n' then Char.ofNat 10 :: unescChars t
    else if c = 'r' then Char.ofNat 13 :: unescChars t
    else if c = 't' then Char.ofNat 9 :: unescChars t
    else '\\' :: c :: unescChars t
  | ['\\'] => ['\\']
  | c :: t => c :: unescChars t

/-- Python 2 `s.decode("string_escape")`. -/
def pyUnescape (s : String) : String :=
  String.mk (unescChars s.toList)

/-- The `Value` variants of the source: `ValueLiteral` (stores the
escape-decoded bytes), `ValueNakedLiteral`, `ValueGenerate`
(`usize`, `unit`, `datatype`; the constructor turns an absent unit into
`"b"`), `ValueFile`. -/
inductive Value
  | lit (val : String)
  | naked (val : String)
  | generate (usize : Nat) (unit : String) (datatype : String)
  | file (path : String)
deriving DecidableEq, Repr

/-- `ValueLiteral(x)`: the constructor stores `x.decode("string_escape")`. -/
def mkVL (s : String) : Value :=
  .lit (pyUnescape s)

/-- Modelled from the spec: `utils.SIZE_UNITS` (libpathod/utils.py, not under
`src/`): `b`=1, `k`=1024, `m`=1024², `g`=1024³. -/
def sizeUnits (u : String) : Option Nat :=
  if u = "b" then some 1
  else if u = "k" then some 1024
  else if u = "m" then some (1024 * 1024)
  else if u = "g" then some (1024 * 1024 * 1024)
  else none

/-- `DATATYPES.keys()` in the declaration order of the source dict literal. -/
def datatypeKeys : List String :=
  ["ascii_letters", "ascii_lowercase", "ascii_uppercase", "digits",
   "hexdigits", "octdigits", "punctuation", "whitespace", "ascii", "bytes"]

/-- A realized byte generator: its advertised length (computable without
materializing bytes — for `RandomGenerator` the `length` attribute, not the
sampled content) and the content a full slice would produce. -/
structure Gen where
  glen : Nat
  content : String
deriving DecidableEq, Repr

def litGen (s : String) : Gen :=
  ⟨s.length, s⟩

/-- Python `s.startswith(pre)`. -/
def pyStartsWith (s pre : String) : Bool :=
  pre.toList.isPrefixOf s.toList

/-- `ValueFile.get_generator`: the file-access policy followed by
construction of a `FileGenerator` over the resolved path. -/
def fileGenerator (s : Settings) (path : String) : Except PErr Gen :=
  if !pyTruthy s.staticdir then .error .fileAccessDenied
  else
    let sd := s.staticdir.getD ""
    let rp := s.os.normAbsJoin sd (s.os.expanduser path)
    if !s.unconstrained_file_access ∧ !pyStartsWith rp sd then .error .fileAccessDenied
    else if !s.os.isfile rp then .error .fileAccessDenied
    else .ok ⟨(s.os.contents rp).length, s.os.contents rp⟩

/-- The resolved filesystem path of a `ValueFile` request:
`normpath(abspath(join(staticdir, expanduser(path))))`. -/
def resolvedPath (s : Settings) (p : String) : String :=
  s.os.normAbsJoin (s.staticdir.getD "") (s.os.expanduser p)

/-- `get_generator` of each value class.  `ValueGenerate` builds a
`RandomGenerator` whose `__len__` is `usize * SIZE_UNITS[unit]` (a missing
unit key raises). -/
def Value.get_generator (v : Value) (s : Settings) : Except PErr Gen :=
  match v with
  | .lit x => .ok (litGen x)
  | .naked x => .ok (litGen x)
  | .generate usize unit datatype =>
    match sizeUnits unit with
    | none => .error .valueError
    | some u => .ok ⟨usize * u, s.genRandom datatype (usize * u)⟩
  | .file p => fileGenerator s p

/-- `freeze` of each value class: literals and `ValueFile` return themselves,
`ValueGenerate` materializes into `ValueLiteral(g[:].encode("string_escape"))`
(whose constructor decodes again). -/
def Value.freeze (v : Value) (s : Settings) : Except PErr Value :=
  match v with
  | .lit x => .ok (.lit x)
  | .naked x => .ok (.naked x)
  | .generate usize unit datatype =>
    match (Value.generate usize unit datatype).get_generator s with
    | .error e => .error e
    | .ok g => .ok (mkVL (pyEscape g.content))
  | .file p => .ok (.file p)

/-- Symbolic or numeric action offset. -/
inductive OffsetV
  | num (n : Nat)
  | r
  | a
deriving DecidableEq, Repr

/-- Second argument of `PauseAt`: seconds or `"f"` (forever). -/
inductive PauseArg
  | secs (n : Nat)
  | forever
deriving DecidableEq, Repr

/-- The token AST of the source.  `shortcutContentType`/`shortcutLocation`/
`shortcutUserAgent` are `_Header` subclasses with a fixed key; `code` stores
`str(int(...))`, hence a `Nat`.  The embedded-subspec token `PathodSpec`
(whose construction re-runs the parser) is outside this embedding. -/
inductive Token
  | header (key value : Value)
  | shortcutContentType (value : Value)
  | shortcutLocation (value : Value)
  | shortcutUserAgent (value : Value)
  | body (value : Value)
  | raw
  | ws
  | wf
  | methodT (value : Value)
  | pathT (value : Value)
  | code (n : Nat)
  | reason (value : Value)
  | pauseAt (off : OffsetV) (arg : PauseArg)
  | disconnectAt (off : OffsetV)
  | injectAt (off : OffsetV) (value : Value)
deriving DecidableEq, Repr

namespace Token

/-- Instance test for `_Action`. -/
def isAction : Token → Bool
  | .pauseAt _ _ => true
  | .disconnectAt _ => true
  | .injectAt _ _ => true
  | _ => false

/-- Instance test for `_Header` (includes the shortcut headers). -/
def isHeaderT : Token → Bool
  | .header _ _ => true
  | .shortcutContentType _ => true
  | .shortcutLocation _ => true
  | .shortcutUserAgent _ => true
  | _ => false

/-- The key of a header-like token (`_Header.key`; the shortcuts fix it in
their constructor). -/
def headerKey : Token → Option Value
  | .header k _ => some k
  | .shortcutContentType _ => some (mkVL "Content-Type")
  | .shortcutLocation _ => some (mkVL "Location")
  | .shortcutUserAgent _ => some (mkVL "User-Agent")
  | _ => none

def headerValue : Token → Option Value
  | .header _ v => some v
  | .shortcutContentType v => some v
  | .shortcutLocation v => some v
  | .shortcutUserAgent v => some v
  | _ => none

/-- The offset of an action token (`_Action.offset`). -/
def offOf : Token → OffsetV
  | .pauseAt o _ => o
  | .disconnectAt o => o
  | .injectAt o _ => o
  | _ => .num 0

/-- Replace the offset of an action token. -/
def setOff (t : Token) (o : OffsetV) : Token :=
  match t with
  | .pauseAt _ arg => .pauseAt o arg
  | .disconnectAt _ => .disconnectAt o
  | .injectAt _ v => .injectAt o v
  | t => t

end Token

/-- `_Message.toks(klass)` for a boolean instance test. -/
def toksP (p : Token → Bool) (l : List Token) : List Token :=
  l.filter p

/-- `_Message.tok(klass)`: first token satisfying the instance test. -/
def tokP (p : Token → Bool) (l : List Token) : Option Token :=
  l.find? p

def headersOf (l : List Token) : List Token :=
  toksP Token.isHeaderT l

def actionsOf (l : List Token) : List Token :=
  toksP Token.isAction l

def rawB (l : List Token) : Bool :=
  (tokP (fun t => t = Token.raw) l).isSome

def wsB (l : List Token) : Bool :=
  (tokP (fun t => t = Token.ws) l).isSome

def bodyTok (l : List Token) : Option Token :=
  tokP (fun t => match t with | .body _ => true | _ => false) l

def codeTok (l : List Token) : Option Token :=
  tokP (fun t => match t with | .code _ => true | _ => false) l

def reasonTok (l : List Token) : Option Token :=
  tokP (fun t => match t with | .reason _ => true | _ => false) l

def methodTok (l : List Token) : Option Token :=
  tokP (fun t => match t with | .methodT _ => true | _ => false) l

def pathTok (l : List Token) : Option Token :=
  tokP (fun t => match t with | .pathT _ => true | _ => false) l

/-- Effectful map over a list in the `Except` monad (the source's list
comprehensions over fallible calls), written with explicit matches so proofs
can follow the structure. -/
def mapME {α β : Type} (f : α → Except PErr β) : List α → Except PErr (List β)
  | [] => .ok []
  | x :: xs =>
    match f x with
    | .error e => .error e
    | .ok y =>
      match mapME f xs with
      | .error e => .error e
      | .ok ys => .ok (y :: ys)

/-- Modelled from the spec: `utils.get_header(name, headers)`
(libpathod/utils.py, not under `src/`).  The spec speaks of a header key
being "already present"; presence is modelled as a case-insensitive match of
the generated key text against the sought name. -/
def getHeader (name : String) (headers : List Token) (s : Settings) :
    Except PErr (Option Token) :=
  match headers with
  | [] => .ok none
  | h :: rest =>
    match h.headerKey with
    | none => getHeader name rest s
    | some k =>
      match k.get_generator s with
      | .error e => .error e
      | .ok g =>
        if pyLower g.content = pyLower name then .ok (some h)
        else getHeader name rest s

/-- Modelled from the spec: the `Sec-WebSocket-Accept` value
`base64(sha1(key + magic))` computed by netlib (external to this repository).
No claim depends on its text, so it is modelled by an injective placeholder. -/
def wsAccept (key : String) : String :=
  String.append "accept-" key

/-- Modelled from the spec: `netlib.websockets.server_handshake_headers(key)`
(external reference data): `Upgrade`, `Connection`, `Sec-WebSocket-Accept`. -/
def serverHandshakeHeaders (key : String) : List (String × String) :=
  [("Upgrade", "websocket"), ("Connection", "Upgrade"),
   ("Sec-WebSocket-Accept", wsAccept key)]

/-- Modelled from the spec: `netlib.websockets.client_handshake_headers()`
(external; its randomly generated key is modelled by a fixed placeholder). -/
def clientHandshakeHeaders : List (String × String) :=
  [("Upgrade", "websocket"), ("Connection", "Upgrade"),
   ("Sec-WebSocket-Key", "bW9kZWxrZXk="), ("Sec-WebSocket-Version", "13")]

/-- Modelled from the spec: `netlib.http_status.RESPONSES` (external fixed
reference data); entries used by this development, with the source's
`"Unknown code"` default. -/
def httpStatusReason (n : Nat) : String :=
  if n = 101 then "Switching Protocols"
  else if n = 200 then "OK"
  else if n = 400 then "Bad Request"
  else "Unknown code"

/-- `_Header.values`: `key ": " value "\r\n"`. -/
def headerValues (t : Token) (s : Settings) : Except PErr (List Gen) :=
  match t.headerKey, t.headerValue with
  | some k, some v =>
    match k.get_generator s with
    | .error e => .error e
    | .ok kg =>
      match v.get_generator s with
      | .error e => .error e
      | .ok vg => .ok [kg, litGen ": ", vg, litGen "\r\n"]
  | _, _ => .ok []

def crlfGen : Gen := litGen "\r\n"

/-- Concatenation of the headers' value lists. -/
def headersValues (l : List Token) (s : Settings) : Except PErr (List Gen) :=
  match mapME (fun h => headerValues h s) (headersOf l) with
  | .error e => .error e
  | .ok gss => .ok gss.flatten

/-- Optional trailing body generator of `_HTTPMessage.values`. -/
def bodyValues (l : List Token) (s : Settings) : Except PErr (List Gen) :=
  match bodyTok l with
  | some (.body v) =>
    match v.get_generator s with
    | .error e => .error e
    | .ok g => .ok [g]
  | _ => .ok []

/-- `Response.preamble`: `HTTP/1.1 <code> <reason-or-table-lookup>`.
Attribute access on a missing `Code` token models the `None.values` crash. -/
def responsePreamble (l : List Token) (s : Settings) : Except PErr (List Gen) :=
  match codeTok l with
  | some (.code n) =>
    match reasonTok l with
    | some (.reason rv) =>
      match rv.get_generator s with
      | .error e => .error e
      | .ok rg => .ok [litGen "HTTP/1.1", litGen " ", litGen (pyNatStr n), litGen " ", rg]
    | _ => .ok [litGen "HTTP/1.1", litGen " ", litGen (pyNatStr n), litGen " ",
                litGen (httpStatusReason n)]
  | _ => .error .attributeError

/-- `Request.preamble`: `<method> " " <path> " " HTTP/1.1` (the embedded
`PathodSpec` token is outside this embedding). -/
def requestPreamble (l : List Token) (s : Settings) : Except PErr (List Gen) :=
  match methodTok l, pathTok l with
  | some (.methodT mv), some (.pathT pv) =>
    match mv.get_generator s with
    | .error e => .error e
    | .ok mg =>
      match pv.get_generator s with
      | .error e => .error e
      | .ok pg => .ok [mg, litGen " ", pg, litGen " ", litGen "HTTP/1.1"]
  | _, _ => .error .attributeError

/-- `_HTTPMessage.values` given a preamble. -/
def httpValues (pre : Except PErr (List Gen)) (l : List Token) (s : Settings) :
    Except PErr (List Gen) :=
  match pre with
  | .error e => .error e
  | .ok pv =>
    match headersValues l s with
    | .error e => .error e
    | .ok hv =>
      match bodyValues l s with
      | .error e => .error e
      | .ok bv => .ok (pv ++ [crlfGen] ++ hv ++ [crlfGen] ++ bv)

def responseValues (l : List Token) (s : Settings) : Except PErr (List Gen) :=
  httpValues (responsePreamble l s) l s

def requestValues (l : List Token) (s : Settings) : Except PErr (List Gen) :=
  httpValues (requestPreamble l s) l s

/-- `_Message.length`: sum of the lengths of `values()`. -/
def lengthOf (vals : Except PErr (List Gen)) : Except PErr Nat :=
  match vals with
  | .error e => .error e
  | .ok gs => .ok (gs.map Gen.glen).sum

/-- `_Component.string`: concatenation of the full slices of `values()`. -/
def stringOf (vals : Except PErr (List Gen)) : Except PErr String :=
  match vals with
  | .error e => .error e
  | .ok gs => .ok (String.join (gs.map Gen.content))

/-- `_Action.resolve` offset replacement: `r` draws `random.randrange(l)`,
`a` becomes `l + 1`, a numeric offset is kept. -/
def resolveOff (s : Settings) (l : Nat) : OffsetV → OffsetV
  | .r => .num (s.randrange l)
  | .a => .num (l + 1)
  | .num n => .num n

/-- Per-token `resolve(settings, msg)`: identity for every non-action token;
an action first computes `msg.length(settings)` (always, as the source does)
and then fixes its offset on a copy. -/
def resolveTok (lm : Except PErr Nat) (s : Settings) (t : Token) : Except PErr Token :=
  if t.isAction then
    match lm with
    | .error e => .error e
    | .ok l => .ok (t.setOff (resolveOff s l (t.offOf)))
  else .ok t

/-- Python `list.insert(1, x)`. -/
def pyInsert1 {α : Type} (t : α) : List α → List α
  | [] => [t]
  | x :: xs => x :: t :: xs

/-- The loop `for i in hdrs.lst: if not get_header(i[0], self.headers): append`.
Returns the header tokens to append, in order. -/
def absentHeaders (s : Settings) (origHeaders : List Token) :
    List (String × String) → Except PErr (List Token)
  | [] => .ok []
  | (k, v) :: rest =>
    match getHeader k origHeaders s with
    | .error e => .error e
    | .ok found =>
      match absentHeaders s origHeaders rest with
      | .error e => .error e
      | .ok tl =>
        .ok (if found.isSome then tl else Token.header (mkVL k) (mkVL v) :: tl)

/-- The `if self.ws:` block of `Response.resolve`: require a websocket key,
insert `Code(101)` at position 1 when no code token is present, and append the
server-handshake headers whose keys are absent from `self.headers`. -/
def wsStageResp (orig : List Token) (s : Settings) (tokens : List Token) :
    Except PErr (List Token) :=
  if wsB orig then
    if !pyTruthy s.websocket_key then .error .renderError
    else
      let key := s.websocket_key.getD ""
      let tokens := if (codeTok orig).isSome then tokens else pyInsert1 (.code 101) tokens
      match absentHeaders s (headersOf orig) (serverHandshakeHeaders key) with
      | .error e => .error e
      | .ok app => .ok (tokens ++ app)
  else .ok tokens

/-- The `if not self.raw:` block of `Response.resolve`: append
`Content-Length: <len(body generator)>` (0 without a body) when no
Content-Length header is present in `self.headers`. -/
def clStageResp (orig : List Token) (s : Settings) (tokens : List Token) :
    Except PErr (List Token) :=
  if rawB orig then .ok tokens
  else
    match getHeader "Content-Length" (headersOf orig) s with
    | .error e => .error e
    | .ok (some _) => .ok tokens
    | .ok none =>
      match bodyTok orig with
      | some (.body bv) =>
        match bv.get_generator s with
        | .error e => .error e
        | .ok g =>
          .ok (tokens ++ [Token.header (mkVL "Content-Length") (mkVL (pyNatStr g.glen))])
      | _ => .ok (tokens ++ [Token.header (mkVL "Content-Length") (mkVL (pyNatStr 0))])

/-- The `if self.ws:` block of `Request.resolve`: insert `Method("get")` at
position 1 when no method token is present, and append the client-handshake
headers whose keys are absent from `self.headers`. -/
def wsStageReq (orig : List Token) (s : Settings) (tokens : List Token) :
    Except PErr (List Token) :=
  if wsB orig then
    let tokens := if (methodTok orig).isSome then tokens
                  else pyInsert1 (.methodT (mkVL "GET")) tokens
    match absentHeaders s (headersOf orig) clientHandshakeHeaders with
    | .error e => .error e
    | .ok app => .ok (tokens ++ app)
  else .ok tokens

/-- The `if not self.raw:` block of `Request.resolve`: append a
Content-Length header only when a body token is present, then append
`Host: <request_host>` when `settings.request_host` is truthy and no Host
header is present. -/
def clStageReq (orig : List Token) (s : Settings) (tokens : List Token) :
    Except PErr (List Token) :=
  if rawB orig then .ok tokens
  else
    let afterCL : Except PErr (List Token) :=
      match getHeader "Content-Length" (headersOf orig) s with
      | .error e => .error e
      | .ok (some _) => .ok tokens
      | .ok none =>
        match bodyTok orig with
        | some (.body bv) =>
          match bv.get_generator s with
          | .error e => .error e
          | .ok g =>
            .ok (tokens ++ [Token.header (mkVL "Content-Length") (mkVL (pyNatStr g.glen))])
        | _ => .ok tokens
    match afterCL with
    | .error e => .error e
    | .ok tokens =>
      if pyTruthy s.request_host then
        match getHeader "Host" (headersOf orig) s with
        | .error e => .error e
        | .ok (some _) => .ok tokens
        | .ok none =>
          .ok (tokens ++ [Token.header (mkVL "Host") (mkVL (s.request_host.getD ""))])
      else .ok tokens

structure Response where
  tokens : List Token
deriving DecidableEq, Repr

structure Request where
  tokens : List Token
deriving DecidableEq, Repr

/-- `Response.resolve(settings)`: staged synthesis, then per-token resolution
against the intermediate message built from the synthesized token list. -/
def Response.resolve (m : Response) (s : Settings) : Except PErr Response :=
  match wsStageResp m.tokens s m.tokens with
  | .error e => .error e
  | .ok t1 =>
    match clStageResp m.tokens s t1 with
    | .error e => .error e
    | .ok t2 =>
      match mapME (resolveTok (lengthOf (responseValues t2 s)) s) t2 with
      | .error e => .error e
      | .ok rts => .ok ⟨rts⟩

/-- `Request.resolve(settings)`. -/
def Request.resolve (m : Request) (s : Settings) : Except PErr Request :=
  match wsStageReq m.tokens s m.tokens with
  | .error e => .error e
  | .ok t1 =>
    match clStageReq m.tokens s t1 with
    | .error e => .error e
    | .ok t2 =>
      match mapME (resolveTok (lengthOf (requestValues t2 s)) s) t2 with
      | .error e => .error e
      | .ok rts => .ok ⟨rts⟩

/-- `freeze` of each token class: values are frozen in place, every other
field is kept (`ValueFile.freeze` and the markers return `self`). -/
def freezeTok (s : Settings) (t : Token) : Except PErr Token :=
  match t with
  | .header k v =>
    match k.freeze s with
    | .error e => .error e
    | .ok k' =>
      match v.freeze s with
      | .error e => .error e
      | .ok v' => .ok (.header k' v')
  | .shortcutContentType v =>
    match v.freeze s with
    | .error e => .error e
    | .ok v' => .ok (.shortcutContentType v')
  | .shortcutLocation v =>
    match v.freeze s with
    | .error e => .error e
    | .ok v' => .ok (.shortcutLocation v')
  | .shortcutUserAgent v =>
    match v.freeze s with
    | .error e => .error e
    | .ok v' => .ok (.shortcutUserAgent v')
  | .body v =>
    match v.freeze s with
    | .error e => .error e
    | .ok v' => .ok (.body v')
  | .methodT v =>
    match v.freeze s with
    | .error e => .error e
    | .ok v' => .ok (.methodT v')
  | .pathT v =>
    match v.freeze s with
    | .error e => .error e
    | .ok v' => .ok (.pathT v')
  | .reason v =>
    match v.freeze s with
    | .error e => .error e
    | .ok v' => .ok (.reason v')
  | .injectAt o v =>
    match v.freeze s with
    | .error e => .error e
    | .ok v' => .ok (.injectAt o v')
  | t => .ok t

/-- A top-level HTTP message: request or response. -/
inductive Msg
  | rq (m : Request)
  | rs (m : Response)
deriving DecidableEq, Repr

def Msg.tokens : Msg → List Token
  | .rq m => m.tokens
  | .rs m => m.tokens

def Msg.isResponse : Msg → Bool
  | .rq _ => false
  | .rs _ => true

def Msg.resolve (m : Msg) (s : Settings) : Except PErr Msg :=
  match m with
  | .rq m =>
    match m.resolve s with
    | .error e => .error e
    | .ok r => .ok (.rq r)
  | .rs m =>
    match m.resolve s with
    | .error e => .error e
    | .ok r => .ok (.rs r)

/-- `_Message.freeze(settings)`: resolve, then freeze every token. -/
def Msg.freeze (m : Msg) (s : Settings) : Except PErr Msg :=
  match m.resolve s with
  | .error e => .error e
  | .ok r =>
    match mapME (freezeTok s) r.tokens with
    | .error e => .error e
    | .ok ts =>
      .ok (match m with | .rq _ => .rq ⟨ts⟩ | .rs _ => .rs ⟨ts⟩)

/-- Does a value syntactically mention `ValueGenerate`? -/
def Value.isGenerate : Value → Bool
  | .generate _ _ _ => true
  | _ => false

def Value.isFile : Value → Bool
  | .file _ => true
  | _ => false

/-- All value fields of a token. -/
def Token.valuesIn : Token → List Value
  | .header k v => [k, v]
  | .shortcutContentType v => [v]
  | .shortcutLocation v => [v]
  | .shortcutUserAgent v => [v]
  | .body v => [v]
  | .methodT v => [v]
  | .pathT v => [v]
  | .reason v => [v]
  | .injectAt _ v => [v]
  | _ => []

def hasGenerateTok (l : List Token) : Bool :=
  l.any (fun t => t.valuesIn.any Value.isGenerate)

def hasFileTok (l : List Token) : Bool :=
  l.any (fun t => t.valuesIn.any Value.isFile)

/-! ### The emission engine (`send_chunk`, `write_values`, `serve`) -/

/-- Python slice `v[i:j]` with the clamping and negative-index semantics of
CPython sequence slicing. -/
def pySlice (v : String) (i j : Int) : String :=
  let n : Int := v.length
  let i' := (if i < 0 then max 0 (n + i) else min i n).toNat
  let j' := (if j < 0 then max 0 (n + j) else min j n).toNat
  if j' ≤ i' then "" else (v.take j').drop i'

/-- The write loop of `send_chunk`: `for i in range(start, end, blocksize):
fp.write(val[i:min(i+blocksize, end)])`, fuel-driven so it reduces in the
kernel (`(e - i).toNat` bounds the iteration count for a positive block
size; a non-positive step makes the range empty). -/
def chunkGo (v : String) (bs e : Int) : Nat → Int → String
  | 0, _ => ""
  | f + 1, i =>
    if 0 < bs ∧ i < e then pySlice v i (min (i + bs) e) ++ chunkGo v bs e f (i + bs)
    else ""

/-- The bytes `send_chunk(fp, v, blocksize, start, end)` writes; its return
value is `end - start` (which the caller adds to its cursor). -/
def chunkWrites (v : String) (bs i e : Int) : String :=
  chunkGo v bs e (e - i).toNat i

/-- A lowered action tuple `(offset, action, arg)` as produced by
`intermediate(settings)`. -/
inductive ActKind
  | pause (arg : PauseArg)
  | disconnect
  | inject (content : String)
deriving DecidableEq, Repr

structure ActT where
  off : Int
  kind : ActKind
deriving DecidableEq, Repr

/-- Result of the inner action loop of `write_values` for one value:
emitted bytes, the in-value cursor `offset`, the remaining actions, whether a
disconnect fired, and the (ghost) sequence of actions dispatched. -/
structure InnerRes where
  out : String
  offst : Int
  remaining : List ActT
  disc : Bool
  trace : List ActT

/-- Result of `write_values`: emitted bytes, the disconnect flag it returns,
and the (ghost) dispatch trace used to state ordering properties. -/
structure EmitRes where
  out : String
  disc : Bool
  trace : List ActT
deriving DecidableEq, Repr

/-- The inner loop of `write_values`: while the next action's offset is below
`sofar + len(v)`, write `send_chunk(fp, v, blocksize, offset,
a[0] - sofar - offset)` (verbatim from the source, including the third
subtraction of `offset` in the chunk **end**), add its return value to
`offset`, and dispatch the action. -/
def wvInner (bs : Int) (v : String) (sofar : Int) : Int → List ActT → InnerRes
  | offst, [] => ⟨"", offst, [], false, []⟩
  | offst, a :: rest =>
    if a.off < sofar + (v.length : Int) then
      let e := a.off - sofar - offst
      let w := chunkWrites v bs offst e
      let offst' := offst + (e - offst)
      match a.kind with
      | .pause _ =>
        let r := wvInner bs v sofar offst' rest
        ⟨w ++ r.out, r.offst, r.remaining, r.disc, a :: r.trace⟩
      | .disconnect => ⟨w, offst', rest, true, [a]⟩
      | .inject cs =>
        let wi := chunkWrites cs bs 0 (cs.length : Int)
        let r := wvInner bs v sofar offst' rest
        ⟨w ++ wi ++ r.out, r.offst, r.remaining, r.disc, a :: r.trace⟩
    else ⟨"", offst, a :: rest, false, []⟩

/-- The remainder loop of `write_values` after all values are written. -/
def wvDrain (bs : Int) : List ActT → EmitRes
  | [] => ⟨"", false, []⟩
  | a :: rest =>
    match a.kind with
    | .pause _ =>
      let r := wvDrain bs rest
      ⟨r.out, r.disc, a :: r.trace⟩
    | .disconnect => ⟨"", true, [a]⟩
    | .inject cs =>
      let r := wvDrain bs rest
      ⟨chunkWrites cs bs 0 (cs.length : Int) ++ r.out, r.disc, a :: r.trace⟩

/-- The outer loop of `write_values` over the values. -/
def wvOuter (bs : Int) (sofar : Int) : List String → List ActT → EmitRes
  | [], actions => wvDrain bs actions
  | v :: vs, actions =>
    let r := wvInner bs v sofar 0 actions
    if r.disc then ⟨r.out, true, r.trace⟩
    else
      let wrest := chunkWrites v bs r.offst (v.length : Int)
      let r2 := wvOuter bs (sofar + (v.length : Int)) vs r.remaining
      ⟨r.out ++ wrest ++ r2.out, r2.disc, r.trace ++ r2.trace⟩

/-- `write_values(fp, vals, actions, sofar=0, blocksize=BLOCKSIZE)`.  The
source takes both lists reversed and pops from the back; here they are in
forward order (head first), which is the same consumption order.  The body
re-initializes `sofar` to 0, ignoring the argument, exactly as the source
does. -/
def write_values (vals : List String) (actions : List ActT) (bs : Int) : EmitRes :=
  wvOuter bs 0 vals actions

/-- The byte stream the spec's emission contract describes: concatenate the
values into `flat`, then apply each action at its own offset in the given
(ascending) order, counting only value bytes; `c` is the cursor of value
bytes already emitted. -/
def specStreamGo (flat : String) : Nat → List ActT → String × Bool
  | c, [] => (flat.drop c, false)
  | c, a :: rest =>
    let o := a.off.toNat
    let pre := (flat.take o).drop c
    match a.kind with
    | .pause _ =>
      let r := specStreamGo flat (max c o) rest
      (pre ++ r.1, r.2)
    | .disconnect => (pre, true)
    | .inject cs =>
      let r := specStreamGo flat (max c o) rest
      (pre ++ cs ++ r.1, r.2)

def specStream (flat : String) (acts : List ActT) : String × Bool :=
  specStreamGo flat 0 acts

/-! ### Action sorting in `serve` -/

/-- Python 2 `cmp(self.offset, other.offset)` as a strict order: numeric
offsets compare numerically; `int` sorts before `str`, and `"a" < "r"`. -/
def offLT : OffsetV → OffsetV → Bool
  | .num i, .num j => i < j
  | .num _, .r => true
  | .num _, .a => true
  | .a, .r => true
  | _, _ => false

def offLE (x y : OffsetV) : Bool :=
  !offLT y x

/-- Stable insertion used to model Python's stable ascending `list.sort()`:
an element passes over strictly smaller offsets and lands before the first
equal-or-larger one, so earlier-in-source elements stay first among equals. -/
def insertAct (x : Token) : List Token → List Token
  | [] => [x]
  | y :: ys => if offLT y.offOf x.offOf then y :: insertAct x ys else x :: y :: ys

def pySort : List Token → List Token
  | [] => []
  | x :: xs => insertAct x (pySort xs)

/-- `intermediate(settings)` of the three action classes.  `serve` resolves
the message first, so offsets are numeric there; a symbolic offset is mapped
to an error (the source would carry a string into the int comparisons of
`write_values`, a case no claim touches). -/
def Token.intermediate (s : Settings) : Token → Except PErr ActT
  | .pauseAt (.num n) arg => .ok ⟨n, .pause arg⟩
  | .disconnectAt (.num n) => .ok ⟨n, .disconnect⟩
  | .injectAt (.num n) v =>
    match v.get_generator s with
    | .error e => .error e
    | .ok g => .ok ⟨n, .inject g.content⟩
  | _ => .error .valueError

def Msg.values (m : Msg) (s : Settings) : Except PErr (List Gen) :=
  match m with
  | .rq q => requestValues q.tokens s
  | .rs q => responseValues q.tokens s

/-- `serve(msg, fp, settings)` up to timing and logging: resolve, collect the
values, sort the actions (ascending, stable), lower them, and emit.  The
source reverses both lists and lets `write_values` pop from the back; the
forward lists here are consumed in the same order. -/
def serve (m : Msg) (s : Settings) : Except PErr EmitRes :=
  match m.resolve s with
  | .error e => .error e
  | .ok r =>
    match r.values s with
    | .error e => .error e
    | .ok vals =>
      match mapME (Token.intermediate s) (pySort (actionsOf r.tokens)) with
      | .error e => .error e
      | .ok acts => .ok (write_values (vals.map Gen.content) acts 1024)

/-! ### `spec()` serialization and the parser fragments for the round-trip
claims (Method and Value tokens) -/

def squote : String :=
  String.mk [Char.ofNat 39]

/-- `spec()` of the value classes: `ValueLiteral` re-encodes inside single
quotes, `ValueNakedLiteral` re-encodes bare, `ValueGenerate` omits the
default unit `b` and default datatype `bytes`, `ValueFile` is `<'path'`. -/
def Value.spec : Value → String
  | .lit v => squote ++ pyEscape v ++ squote
  | .naked v => pyEscape v
  | .generate u un dt =>
    String.append "@" (pyNatStr u)
      ++ (if un = "b" then "" else un)
      ++ (if dt = "bytes" then "" else String.append "," dt)
  | .file p => String.append "<" (squote ++ pyEscape p ++ squote)

def httpMethods : List String :=
  ["get", "head", "post", "put", "delete", "options", "trace", "connect"]

/-- `Method.spec`: render the value, and strip the quotes exactly when the
unquoted lower-cased text is one of the known method keywords. -/
def methodSpec (v : Value) : String :=
  let s := v.spec
  let inner := pyLower ((s.drop 1).dropRight 1)
  if httpMethods.contains inner then inner else s

def isCaselessPrefixOf : List Char → List Char → Bool
  | [], _ => true
  | _ :: _, [] => false
  | k :: kt, c :: ct => lowerChar k = lowerChar c && isCaselessPrefixOf kt ct

/-- `int(toks[0])` over a digit run. -/
def digitsVal (l : List Char) : Nat :=
  l.foldl (fun a c => 10 * a + (c.toNat - 48)) 0

def unitChars : List Char :=
  ['b', 'k', 'm', 'g']

/-- `Optional(unit)` of `ValueGenerate.expr`; an absent unit becomes `"b"`
in the constructor. -/
def parseUnit : List Char → String × List Char
  | [] => ("b", [])
  | c :: t => if unitChars.contains c then (String.mk [c], t) else ("b", c :: t)

/-- First `DATATYPES` key (declaration order) that literally matches a
prefix, as `MatchFirst` of `Literal`s does. -/
def findDtKeyGo : List String → List Char → Option (String × List Char)
  | [], _ => none
  | k :: rest, s =>
    if k.toList.isPrefixOf s then some (k, s.drop k.length) else findDtKeyGo rest s

/-- `Optional("," datatype)` of `ValueGenerate.expr` with default `"bytes"`. -/
def parseDatatype : List Char → Option (String × List Char)
  | ',' :: t => findDtKeyGo datatypeKeys t
  | s => some ("bytes", s)

/-- `ValueGenerate.expr`: `"@" integer unit? ("," datatype)?`. -/
def parseGenerateChars : List Char → Option (Value × List Char)
  | '@' :: rest =>
    let ds := rest.takeWhile Char.isDigit
    if ds.isEmpty then none
    else
      let r1 := rest.dropWhile Char.isDigit
      let (un, r2) := parseUnit r1
      match parseDatatype r2 with
      | none => none
      | some (dt, r3) => some (.generate (digitsVal ds) un dt, r3)
  | _ => none

/-- Scan a `QuotedString` body up to the closing quote, keeping escape pairs
(`escChar` is the backslash). -/
def scanQuoted (q : Char) : List Char → Option (List Char × List Char)
  | [] => none
  | c :: rest =>
    if c = q then some ([], rest)
    else if c = '\\' then
      match rest with
      | [] => none
      | d :: rest' =>
        match scanQuoted q rest' with
        | none => none
        | some (cs, rem) => some ('\\' :: d :: cs, rem)
    else
      match scanQuoted q rest with
      | none => none
      | some (cs, rem) => some (c :: cs, rem)

/-- The `unquoteResults` post-processing of pyparsing's `QuotedString` with
an escape character: each backslash-character pair collapses to the
character. -/
def escRemove : List Char → List Char
  | [] => []
  | '\\' :: c :: t => c :: escRemove t
  | c :: t => c :: escRemove t

/-- `ValueLiteral.expr`: a quoted string (either quote), unquoted and
escape-processed by pyparsing, then escape-decoded by the constructor. -/
def parseQuotedChars : List Char → Option (Value × List Char)
  | [] => none
  | c :: rest =>
    if c = '"' ∨ c = Char.ofNat 39 then
      match scanQuoted c rest with
      | none => none
      | some (raw, rem) => some (mkVL (String.mk (escRemove raw)), rem)
    else none

/-- A `Word` of the printables without `,:@` and the quotes
(`v_naked_literal`'s second alternative). -/
def nakedWordChar (c : Char) : Bool :=
  33 ≤ c.toNat ∧ c.toNat ≤ 126 ∧ c ≠ ',' ∧ c ≠ ':' ∧ c ≠ '@' ∧ c ≠ '"' ∧
    c ≠ Char.ofNat 39

def parseNakedWord (s : List Char) : Option (String × List Char) :=
  let w := s.takeWhile nakedWordChar
  if w.isEmpty then none else some (String.mk w, s.dropWhile nakedWordChar)

/-- `ValueFile.expr`: `"<" v_naked_literal`; the path is the raw parse-result
string (no `string_escape` decoding, there being no `ValueLiteral`
constructor on this path). -/
def parseFileChars : List Char → Option (Value × List Char)
  | '<' :: t =>
    (match t with
     | c :: rest =>
       if c = '"' ∨ c = Char.ofNat 39 then
         match scanQuoted c rest with
         | none => none
         | some (raw, rem) => some (.file (String.mk (escRemove raw)), rem)
       else
         match parseNakedWord t with
         | none => none
         | some (w, rem) => some (.file w, rem)
     | [] => none)
  | _ => none

/-- `Value` = `MatchFirst([ValueGenerate, ValueFile, ValueLiteral])`. -/
def parseValueChars (s : List Char) : Option (Value × List Char) :=
  match parseGenerateChars s with
  | some r => some r
  | none =>
    match parseFileChars s with
    | some r => some r
    | none => parseQuotedChars s

/-- First method keyword whose text caselessly matches a prefix
(`MatchFirst` of `CaselessLiteral`s, which return the keyword as defined). -/
def findKw : List String → List Char → Option (String × List Char)
  | [], _ => none
  | k :: rest, s =>
    if isCaselessPrefixOf k.toList s then some (k, s.drop k.length)
    else findKw rest s

/-- `Method.expr` on a whole input (`parseAll`): keywords first, then
`Value`; the constructor upper-cases a keyword match into a
`ValueLiteral`. -/
def parseMethodFull (s : List Char) : Option Token :=
  match findKw httpMethods s with
  | some (k, rem) => if rem.isEmpty then some (.methodT (mkVL (pyUpper k))) else none
  | none =>
    match parseValueChars s with
    | some (v, rem) => if rem.isEmpty then some (.methodT v) else none
    | none => none

/-- `ValueGenerate.expr` on a whole input. -/
def parseGenerateFull (s : List Char) : Option Value :=
  match parseGenerateChars s with
  | some (v, []) => some v
  | _ => none

/-! ### A token-object heap, for the frame property of `resolve`

Python tokens are heap objects; `self.tokens` is a list of references.
`resolve` copies that list (`self.tokens[:]`), builds fresh objects for
everything it synthesizes, and `_Action.resolve` mutates only a
`copy.copy` of the action.  The heap is a list of cells, a reference is an
index, `copy.copy` is allocation of a cell with the same field values, and
a field assignment is an in-place `List.set`. -/

/-- Dereference: `h[i]` is the token object with identity `i`. -/
def hGet (h : List Token) (i : Nat) : Option Token :=
  h.get? i

/-- Dereference a whole reference list (`self.tokens`). -/
def readAll (h : List Token) : List Nat → Option (List Token)
  | [] => some []
  | i :: is =>
    match hGet h i, readAll h is with
    | some t, some ts => some (t :: ts)
    | _, _ => none

/-- Allocate fresh cells for freshly constructed tokens, returning the new
heap and their references in order. -/
def hAllocList : List Token → List Token → List Token × List Nat
  | h, [] => (h, [])
  | h, t :: ts =>
    let p := hAllocList (h ++ [t]) ts
    (p.1, h.length :: p.2)

/-- Heap-level `_Token.resolve` / `_Action.resolve`: a non-action returns
`self`; an action makes `c = copy.copy(self)`, computes `l`, and assigns the
numeric offset into the copy (no assignment in the already-numeric case). -/
def hResolveTok (lm : Except PErr Nat) (s : Settings) (h : List Token) (i : Nat) :
    Except PErr (List Token × Nat) :=
  match hGet h i with
  | none => .error .attributeError
  | some t =>
    if t.isAction then
      match lm with
      | .error e => .error e
      | .ok l =>
        let h₁ := h ++ [t]
        let j := h.length
        match t.offOf with
        | .r => .ok (h₁.set j (t.setOff (.num (s.randrange l))), j)
        | .a => .ok (h₁.set j (t.setOff (.num (l + 1))), j)
        | .num _ => .ok (h₁, j)
    else .ok (h, i)

/-- The comprehension `[i.resolve(settings, intermediate) for i in tokens]`
on the heap. -/
def hMapResolve (lm : Except PErr Nat) (s : Settings) :
    List Token → List Nat → Except PErr (List Token × List Nat)
  | h, [] => .ok (h, [])
  | h, i :: is =>
    match hResolveTok lm s h i with
    | .error e => .error e
    | .ok (h₁, j) =>
      match hMapResolve lm s h₁ is with
      | .error e => .error e
      | .ok (h₂, js) => .ok (h₂, j :: js)

/-- Heap-level `if self.ws:` block of `Response.resolve`: `Code(101)` and the
handshake `Header(...)` tokens are freshly constructed objects; only the
copied reference list is edited. -/
def hWsStageResp (orig : List Token) (s : Settings) (h : List Token)
    (ids : List Nat) : Except PErr (List Token × List Nat) :=
  if wsB orig then
    if !pyTruthy s.websocket_key then .error .renderError
    else
      let key := s.websocket_key.getD ""
      let p := if (codeTok orig).isSome then (h, ids)
               else (h ++ [Token.code 101], pyInsert1 h.length ids)
      match absentHeaders s (headersOf orig) (serverHandshakeHeaders key) with
      | .error e => .error e
      | .ok app =>
        let q := hAllocList p.1 app
        .ok (q.1, p.2 ++ q.2)
  else .ok (h, ids)

/-- Heap-level `if not self.raw:` block of `Response.resolve`: the
Content-Length `Header(...)` is a freshly constructed object. -/
def hClStageResp (orig : List Token) (s : Settings) (h : List Token)
    (ids : List Nat) : Except PErr (List Token × List Nat) :=
  if rawB orig then .ok (h, ids)
  else
    match getHeader ("Content-Length") (headersOf orig) s with
    | .error e => .error e
    | .ok (some _) => .ok (h, ids)
    | .ok none =>
      match bodyTok orig with
      | some (.body bv) =>
        match bv.get_generator s with
        | .error e => .error e
        | .ok g =>
          .ok (h ++ [Token.header (mkVL ("Content-Length")) (mkVL (pyNatStr g.glen))],
            ids ++ [h.length])
      | _ =>
        .ok (h ++ [Token.header (mkVL ("Content-Length")) (mkVL (pyNatStr 0))],
          ids ++ [h.length])

/-- Heap-level `Response.resolve`: `tokens = self.tokens[:]` copies the
reference list `ids`; the stages run on the copy against the original
objects; `intermediate` is the message over the synthesized reference list;
each token is resolved, actions onto fresh copies. -/
def hResolveResp (s : Settings) (h : List Token) (ids : List Nat) :
    Except PErr (List Token × List Nat) :=
  match readAll h ids with
  | none => .error .attributeError
  | some orig =>
    match hWsStageResp orig s h ids with
    | .error e => .error e
    | .ok (h₁, ids₁) =>
      match hClStageResp orig s h₁ ids₁ with
      | .error e => .error e
      | .ok (h₂, ids₂) =>
        match readAll h₂ ids₂ with
        | none => .error .attributeError
        | some t2 =>
          hMapResolve (lengthOf (responseValues t2 s)) s h₂ ids₂

/-! ### Concrete fixtures used by counterexamples and witnesses -/

/-- A concrete filesystem model for closed evaluations. -/
def cOs : OsModel :=
  ⟨id, fun b p => b ++ ("/" ++ p), fun _ => true, fun _ => "FILE"⟩

/-- Default settings: no staticdir, no host, no websocket key; the ambient
PRNG oracles are fixed functions. -/
def cS : Settings :=
  ⟨none, false, none, none, cOs, fun _ => 0, fun _ _ => ""⟩

/-- Settings with a websocket key, as after a client handshake. -/
def cSws : Settings :=
  ⟨none, false, none, some ("KEY"), cOs, fun _ => 0, fun _ _ => ""⟩

/-- The parse of `get:/:h'X'='Y'`: an upper-cased keyword method, a naked
path, one header. -/
def exReq : Request :=
  ⟨[.methodT (mkVL ("GET")), .pathT (.naked "/"), .header (mkVL ("X")) (mkVL ("Y"))]⟩

/-- The parse of the response spec `ws`. -/
def wsResp : Response :=
  ⟨[.ws]⟩

/-- Is a token a literal `Content-Length` header? -/
def clHeaderB (t : Token) : Bool :=
  t.headerKey = some (.lit ("Content-Length"))

/-- A raw response whose body is a `ValueFile`. -/
def fileResp : Response :=
  ⟨[.code 200, .raw, .body (.file ("f"))]⟩

/-- The characters of `'get'` (a quoted lower-case method literal). -/
def quotGet : List Char :=
  [Char.ofNat 39, 'g', 'e', 't', Char.ofNat 39]

/-- Settings with a configured static directory over the concrete
filesystem model. -/
def wS : Settings :=
  ⟨some ("/s"), false, none, none, cOs, fun _ => 0, fun _ _ => ""⟩

/-- The parse of the response spec `200`. -/
def r200 : Response :=
  ⟨[.code 200]⟩

/-- A response with a 5-byte random body. -/
def genResp : Response :=
  ⟨[.code 200, .body (.generate 5 ("b") ("bytes"))]⟩

/-! ### Supporting lemmas -/

theorem mapME_mem {α β : Type} {f : α → Except PErr β} :
    ∀ {l : List α} {l' : List β}, mapME f l = .ok l' →
      ∀ b ∈ l', ∃ a ∈ l, f a = .ok b := by
  intro l
  induction l with
  | nil =>
    intro l' h b hb
    simp only [mapME] at h
    cases h
    simp at hb
  | cons x xs ih =>
    intro l' h b hb
    simp only [mapME] at h
    cases hfx : f x with
    | error e => rw [hfx] at h; exact Except.noConfusion h
    | ok y =>
      rw [hfx] at h
      cases hxs : mapME f xs with
      | error e => rw [hxs] at h; exact Except.noConfusion h
      | ok ys =>
        rw [hxs] at h
        cases h
        rcases List.mem_cons.mp hb with rfl | hmem
        · exact ⟨x, List.mem_cons_self x xs, hfx⟩
        · obtain ⟨a, ha, hfa⟩ := ih hxs b hmem
          exact ⟨a, List.mem_cons_of_mem x ha, hfa⟩

theorem freeze_not_generate {v v' : Value} {s : Settings}
    (h : v.freeze s = .ok v') : v'.isGenerate = false := by
  cases v with
  | lit x => cases h; rfl
  | naked x => cases h; rfl
  | file p => cases h; rfl
  | generate u un dt =>
    simp only [Value.freeze] at h
    cases hg : (Value.generate u un dt).get_generator s with
    | error e => rw [hg] at h; exact Except.noConfusion h
    | ok g => rw [hg] at h; cases h; rfl

theorem freezeTok_values {s : Settings} {t t' : Token}
    (h : freezeTok s t = .ok t') :
    ∀ v ∈ t'.valuesIn, v.isGenerate = false := by
  cases t <;> simp only [freezeTok] at h
  case raw => cases h; simp [Token.valuesIn]
  case ws => cases h; simp [Token.valuesIn]
  case wf => cases h; simp [Token.valuesIn]
  case code n => cases h; simp [Token.valuesIn]
  case pauseAt o a => cases h; simp [Token.valuesIn]
  case disconnectAt o => cases h; simp [Token.valuesIn]
  case header k v =>
    cases hk : k.freeze s with
    | error e => rw [hk] at h; exact Except.noConfusion h
    | ok k' =>
      rw [hk] at h
      cases hv : v.freeze s with
      | error e => rw [hv] at h; exact Except.noConfusion h
      | ok v' =>
        rw [hv] at h
        cases h
        intro u hu
        rcases List.mem_cons.mp hu with rfl | hu'
        · exact freeze_not_generate hk
        · rcases List.mem_cons.mp hu' with rfl | hu''
          · exact freeze_not_generate hv
          · simp at hu''
  case shortcutContentType v =>
    cases hv : v.freeze s with
    | error e => rw [hv] at h; exact Except.noConfusion h
    | ok v' =>
      rw [hv] at h; cases h
      intro u hu
      rcases List.mem_cons.mp hu with rfl | hu'
      · exact freeze_not_generate hv
      · simp at hu'
  case shortcutLocation v =>
    cases hv : v.freeze s with
    | error e => rw [hv] at h; exact Except.noConfusion h
    | ok v' =>
      rw [hv] at h; cases h
      intro u hu
      rcases List.mem_cons.mp hu with rfl | hu'
      · exact freeze_not_generate hv
      · simp at hu'
  case shortcutUserAgent v =>
    cases hv : v.freeze s with
    | error e => rw [hv] at h; exact Except.noConfusion h
    | ok v' =>
      rw [hv] at h; cases h
      intro u hu
      rcases List.mem_cons.mp hu with rfl | hu'
      · exact freeze_not_generate hv
      · simp at hu'
  case body v =>
    cases hv : v.freeze s with
    | error e => rw [hv] at h; exact Except.noConfusion h
    | ok v' =>
      rw [hv] at h; cases h
      intro u hu
      rcases List.mem_cons.mp hu with rfl | hu'
      · exact freeze_not_generate hv
      · simp at hu'
  case methodT v =>
    cases hv : v.freeze s with
    | error e => rw [hv] at h; exact Except.noConfusion h
    | ok v' =>
      rw [hv] at h; cases h
      intro u hu
      rcases List.mem_cons.mp hu with rfl | hu'
      · exact freeze_not_generate hv
      · simp at hu'
  case pathT v =>
    cases hv : v.freeze s with
    | error e => rw [hv] at h; exact Except.noConfusion h
    | ok v' =>
      rw [hv] at h; cases h
      intro u hu
      rcases List.mem_cons.mp hu with rfl | hu'
      · exact freeze_not_generate hv
      · simp at hu'
  case reason v =>
    cases hv : v.freeze s with
    | error e => rw [hv] at h; exact Except.noConfusion h
    | ok v' =>
      rw [hv] at h; cases h
      intro u hu
      rcases List.mem_cons.mp hu with rfl | hu'
      · exact freeze_not_generate hv
      · simp at hu'
  case injectAt o v =>
    cases hv : v.freeze s with
    | error e => rw [hv] at h; exact Except.noConfusion h
    | ok v' =>
      rw [hv] at h; cases h
      intro u hu
      rcases List.mem_cons.mp hu with rfl | hu'
      · exact freeze_not_generate hv
      · simp at hu'

theorem offLT_asymm {x y : OffsetV} (h : offLT x y = true) : offLT y x = false := by
  cases x <;> cases y <;> simp [offLT] at * <;> omega

theorem offLE_of_not_lt {x y : OffsetV} (h : offLT x y = false) : offLE y x = true := by
  simp [offLE, h]

theorem offLE_trans {x y z : OffsetV} (h1 : offLE x y = true) (h2 : offLE y z = true) :
    offLE x z = true := by
  cases x <;> cases y <;> cases z <;> simp [offLE, offLT] at * <;> omega

theorem offLT_ne {x y : OffsetV} (h : offLT x y = true) : x ≠ y := by
  cases x <;> cases y <;> simp [offLT] at * <;> omega

theorem mem_insertAct {z x : Token} : ∀ {l : List Token},
    z ∈ insertAct x l ↔ z = x ∨ z ∈ l := by
  intro l
  induction l with
  | nil => simp [insertAct]
  | cons y ys ih =>
    by_cases hlt : offLT y.offOf x.offOf
    · simp [insertAct, hlt, ih]
      tauto
    · simp [insertAct, hlt]

theorem getHeader_append_some {name : String} {h : Token} {s : Settings} :
    ∀ {pre : List Token} (post : List Token),
      getHeader name pre s = .ok (some h) →
      getHeader name (pre ++ post) s = .ok (some h) := by
  intro pre
  induction pre with
  | nil => intro post hp; simp [getHeader] at hp
  | cons t rest ih =>
    intro post hp
    simp only [List.cons_append, getHeader] at hp ⊢
    split at hp
    · exact ih post hp
    · split at hp
      · exact Except.noConfusion hp
      · split at hp
        · rename_i hm
          rw [if_pos hm]
          exact hp
        · rename_i hm
          rw [if_neg hm]
          exact ih post hp

theorem getHeader_append_of_none {name : String} {s : Settings} :
    ∀ {pre : List Token} (post : List Token),
      getHeader name pre s = .ok none →
      getHeader name (pre ++ post) s = getHeader name post s := by
  intro pre
  induction pre with
  | nil => intro post _; rfl
  | cons t rest ih =>
    intro post hp
    simp only [List.cons_append, getHeader] at hp ⊢
    split at hp
    · exact ih post hp
    · split at hp
      · exact Except.noConfusion hp
      · split at hp
        · simp at hp
        · rename_i hm
          rw [if_neg hm]
          exact ih post hp

theorem getHeader_lit_none {name : String} {s : Settings} :
    ∀ {app : List Token},
      (∀ t ∈ app, ∃ k v, t = Token.header (mkVL k) (mkVL v) ∧
        pyLower (pyUnescape k) ≠ pyLower name) →
      getHeader name app s = .ok none := by
  intro app
  induction app with
  | nil => intro _; rfl
  | cons t rest ih =>
    intro hall
    obtain ⟨k, v, rfl, hne⟩ := hall t (List.mem_cons_self t rest)
    simp only [getHeader, Token.headerKey, mkVL, Value.get_generator, litGen]
    rw [if_neg hne]
    exact ih (fun u hu => hall u (List.mem_cons_of_mem _ hu))

theorem getHeader_lit_some {name : String} {s : Settings} {v : Value} :
    ∀ {app : List Token},
      (∀ t ∈ app, ∃ k' v', t = Token.header (mkVL k') (mkVL v')) →
      Token.header (mkVL name) v ∈ app →
      pyLower (pyUnescape name) = pyLower name →
      ∃ h, getHeader name app s = .ok (some h) := by
  intro app
  induction app with
  | nil => intro _ hmem; simp at hmem
  | cons t rest ih =>
    intro hall hmem hself
    obtain ⟨k', v', rfl⟩ := hall t (List.mem_cons_self t rest)
    simp only [getHeader, Token.headerKey, mkVL, Value.get_generator, litGen]
    by_cases hm : pyLower (pyUnescape k') = pyLower name
    · exact ⟨_, by rw [if_pos hm]⟩
    · rw [if_neg hm]
      rcases List.mem_cons.mp hmem with heq | hmem'
      · exfalso
        have hkk : pyUnescape name = pyUnescape k' := by
          have h2 := congrArg (fun t : Token => t.headerKey) heq
          simp only [Token.headerKey, mkVL, Option.some.injEq, Value.lit.injEq] at h2
          exact h2
        rw [← hkk] at hm
        exact hm hself
      · exact ih (fun u hu => hall u (List.mem_cons_of_mem _ hu)) hmem' hself

theorem filter_pyInsert1 {p : Token → Bool} {t : Token} (hp : p t = false) :
    ∀ l, (pyInsert1 t l).filter p = l.filter p := by
  intro l
  cases l with
  | nil => simp [pyInsert1, hp]
  | cons x xs => simp [pyInsert1, List.filter_cons, hp]

theorem tokP_pyInsert1_isSome {p : Token → Bool} {t : Token} (hp : p t = true) :
    ∀ l, (tokP p (pyInsert1 t l)).isSome = true := by
  intro l
  cases l with
  | nil => simp [pyInsert1, tokP, hp]
  | cons x xs =>
    by_cases hx : p x
    · simp [pyInsert1, tokP, List.find?_cons_of_pos, hx]
    · simp [pyInsert1, tokP, List.find?_cons_of_neg, hx, hp]

theorem tokP_append_some {p : Token → Bool} {t : Token} {l1 : List Token}
    (l2 : List Token) (h : tokP p l1 = some t) :
    tokP p (l1 ++ l2) = some t := by
  unfold tokP at h ⊢
  rw [List.find?_append, h]
  rfl

theorem tokP_append_none {p : Token → Bool} {l1 : List Token}
    (l2 : List Token) (h : tokP p l1 = none) :
    tokP p (l1 ++ l2) = tokP p l2 := by
  unfold tokP at h ⊢
  rw [List.find?_append, h]
  rfl

theorem mapME_forall2 {α β : Type} {f : α → Except PErr β} :
    ∀ {l : List α} {l' : List β}, mapME f l = .ok l' →
      List.Forall₂ (fun a b => f a = .ok b) l l' := by
  intro l
  induction l with
  | nil =>
    intro l' h
    simp only [mapME] at h
    cases h
    exact List.Forall₂.nil
  | cons x xs ih =>
    intro l' h
    simp only [mapME] at h
    cases hfx : f x with
    | error e => rw [hfx] at h; exact Except.noConfusion h
    | ok y =>
      rw [hfx] at h
      cases hxs : mapME f xs with
      | error e => rw [hxs] at h; exact Except.noConfusion h
      | ok ys =>
        rw [hxs] at h
        cases h
        exact List.Forall₂.cons hfx (ih hxs)

theorem mapME_of_fixed {α : Type} {f : α → Except PErr α} :
    ∀ {l : List α}, (∀ a ∈ l, f a = .ok a) → mapME f l = .ok l := by
  intro l
  induction l with
  | nil => intro _; rfl
  | cons x xs ih =>
    intro h
    simp only [mapME]
    rw [h x (List.mem_cons_self x xs), ih (fun a ha => h a (List.mem_cons_of_mem x ha))]

theorem forall2_filter_eq {R : Token → Token → Prop} {p : Token → Bool}
    {l l' : List Token} (h : List.Forall₂ R l l')
    (hp : ∀ a b, R a b → p b = p a ∧ (p a = true → b = a)) :
    l'.filter p = l.filter p := by
  induction h with
  | nil => rfl
  | cons hr htail ih =>
    rename_i a b as bs
    obtain ⟨hpb, hfix⟩ := hp a b hr
    by_cases hpa : p a = true
    · rw [List.filter_cons, List.filter_cons, hpa, hpb, hpa, hfix hpa, ih]
    · have hpa' : p a = false := by revert hpa; cases p a <;> simp
      rw [List.filter_cons, List.filter_cons, hpa', hpb, hpa', ih]
      simp only [Bool.false_eq_true, if_false]

theorem forall2_find_eq {R : Token → Token → Prop} {p : Token → Bool}
    {l l' : List Token} (h : List.Forall₂ R l l')
    (hp : ∀ a b, R a b → p b = p a ∧ (p a = true → b = a)) :
    l'.find? p = l.find? p := by
  induction h with
  | nil => rfl
  | cons hr htail ih =>
    rename_i a b as bs
    obtain ⟨hpb, hfix⟩ := hp a b hr
    by_cases hpa : p a = true
    · rw [List.find?_cons_of_pos _ (hpb ▸ hpa), List.find?_cons_of_pos _ hpa, hfix hpa]
    · have hpa' : p a = false := by revert hpa; cases p a <;> simp
      rw [List.find?_cons_of_neg, List.find?_cons_of_neg, ih]
      · simp [hpa']
      · simp [hpb, hpa']

theorem forall2_mem_fixed {R : Token → Token → Prop} {t : Token}
    {l l' : List Token} (h : List.Forall₂ R l l') (hmem : t ∈ l)
    (hfix : ∀ b, R t b → b = t) : t ∈ l' := by
  induction h with
  | nil => simp at hmem
  | cons hr htail ih =>
    rename_i a b as bs
    rcases List.mem_cons.mp hmem with rfl | hmem'
    · rw [hfix b hr]; exact List.mem_cons_self t bs
    · exact List.mem_cons_of_mem b (ih hmem')

theorem isAction_setOff (a : Token) (o : OffsetV) :
    (a.setOff o).isAction = a.isAction := by
  cases a <;> rfl

theorem setOff_setOff (a : Token) (o o' : OffsetV) :
    (a.setOff o).setOff o' = a.setOff o' := by
  cases a <;> rfl

theorem offOf_setOff {a : Token} (h : a.isAction = true) (o : OffsetV) :
    (a.setOff o).offOf = o := by
  cases a <;> simp [Token.setOff, Token.offOf, Token.isAction] at h ⊢

theorem resolveTok_not_action {lm : Except PErr Nat} {s : Settings} {t : Token}
    (h : t.isAction = false) : resolveTok lm s t = .ok t := by
  simp [resolveTok, h]

theorem resolveTok_ok_shape {lm : Except PErr Nat} {s : Settings} {t t' : Token}
    (h : resolveTok lm s t = .ok t') :
    (t.isAction = false ∧ t' = t) ∨
    (t.isAction = true ∧ ∃ L k, lm = .ok L ∧ t' = t.setOff (.num k)) := by
  by_cases ha : t.isAction = true
  · right
    refine ⟨ha, ?_⟩
    simp only [resolveTok, ha, if_true] at h
    cases hlm : lm with
    | error e => rw [hlm] at h; exact Except.noConfusion h
    | ok L =>
      rw [hlm] at h
      cases h
      obtain ⟨k, hk⟩ : ∃ k, resolveOff s L t.offOf = .num k := by
        cases t.offOf <;> exact ⟨_, rfl⟩
      exact ⟨L, k, rfl, by rw [hk]⟩
  · left
    have ha' : t.isAction = false := by revert ha; cases t.isAction <;> simp
    refine ⟨ha', ?_⟩
    rw [resolveTok_not_action ha'] at h
    cases h
    rfl

theorem mapME_resolveTok_filter {lm : Except PErr Nat} {s : Settings}
    {l l' : List Token} (hmap : mapME (resolveTok lm s) l = .ok l')
    (p : Token → Bool) (hset : ∀ a o, p (a.setOff o) = p a)
    (hact : ∀ a, p a = true → a.isAction = false) :
    l'.filter p = l.filter p := by
  refine forall2_filter_eq (mapME_forall2 hmap) ?_
  intro a b hr
  rcases resolveTok_ok_shape hr with ⟨_, rfl⟩ | ⟨ha, L, k, _, rfl⟩
  · exact ⟨rfl, fun _ => rfl⟩
  · refine ⟨hset a _, fun hpa => ?_⟩
    rw [hact a hpa] at ha
    exact Bool.noConfusion ha

theorem mapME_resolveTok_find {lm : Except PErr Nat} {s : Settings}
    {l l' : List Token} (hmap : mapME (resolveTok lm s) l = .ok l')
    (p : Token → Bool) (hset : ∀ a o, p (a.setOff o) = p a)
    (hact : ∀ a, p a = true → a.isAction = false) :
    l'.find? p = l.find? p := by
  refine forall2_find_eq (mapME_forall2 hmap) ?_
  intro a b hr
  rcases resolveTok_ok_shape hr with ⟨_, rfl⟩ | ⟨ha, L, k, _, rfl⟩
  · exact ⟨rfl, fun _ => rfl⟩
  · refine ⟨hset a _, fun hpa => ?_⟩
    rw [hact a hpa] at ha
    exact Bool.noConfusion ha

theorem absentHeaders_sub {s : Settings} {H : List Token} :
    ∀ {ps : List (String × String)} {app : List Token},
      absentHeaders s H ps = .ok app →
      ∀ t ∈ app, ∃ kv ∈ ps, t = Token.header (mkVL kv.1) (mkVL kv.2) := by
  intro ps
  induction ps with
  | nil =>
    intro app h t ht
    simp only [absentHeaders] at h
    cases h
    simp at ht
  | cons kv rest ih =>
    intro app h t ht
    obtain ⟨k, v⟩ := kv
    simp only [absentHeaders] at h
    cases hfound : getHeader k H s with
    | error e => rw [hfound] at h; exact Except.noConfusion h
    | ok found =>
      simp only [hfound] at h
      cases htl : absentHeaders s H rest with
      | error e => rw [htl] at h; exact Except.noConfusion h
      | ok tl =>
        simp only [htl] at h
        cases h
        by_cases hs : found.isSome
        · rw [if_pos hs] at ht
          obtain ⟨kv', hkv', rfl⟩ := ih htl t ht
          exact ⟨kv', List.mem_cons_of_mem _ hkv', rfl⟩
        · rw [if_neg hs] at ht
          rcases List.mem_cons.mp ht with rfl | ht'
          · exact ⟨(k, v), List.mem_cons_self _ _, rfl⟩
          · obtain ⟨kv', hkv', rfl⟩ := ih htl t ht'
            exact ⟨kv', List.mem_cons_of_mem _ hkv', rfl⟩

theorem absentHeaders_cases {s : Settings} {H : List Token} :
    ∀ {ps : List (String × String)} {app : List Token},
      absentHeaders s H ps = .ok app →
      ∀ kv ∈ ps, (∃ hh, getHeader kv.1 H s = .ok (some hh)) ∨
        (getHeader kv.1 H s = .ok none ∧
          Token.header (mkVL kv.1) (mkVL kv.2) ∈ app) := by
  intro ps
  induction ps with
  | nil => intro app _ kv hkv; simp at hkv
  | cons kv0 rest ih =>
    intro app h kv hkv
    obtain ⟨k, v⟩ := kv0
    simp only [absentHeaders] at h
    cases hfound : getHeader k H s with
    | error e => rw [hfound] at h; exact Except.noConfusion h
    | ok found =>
      simp only [hfound] at h
      cases htl : absentHeaders s H rest with
      | error e => rw [htl] at h; exact Except.noConfusion h
      | ok tl =>
        simp only [htl] at h
        cases h
        rcases List.mem_cons.mp hkv with rfl | hkv'
        · cases hf : found with
          | some hh => exact Or.inl ⟨hh, by rw [hfound, hf]⟩
          | none =>
            refine Or.inr ⟨by rw [hfound, hf], ?_⟩
            simp only [Option.isSome_none, Bool.false_eq_true, if_false]
            exact List.mem_cons_self _ _
        · rcases ih htl kv hkv' with hl | ⟨hn, hm⟩
          · exact Or.inl hl
          · refine Or.inr ⟨hn, ?_⟩
            by_cases hs : found.isSome
            · rw [if_pos hs]; exact hm
            · rw [if_neg hs]; exact List.mem_cons_of_mem _ hm

theorem absentHeaders_all_some {s : Settings} {H : List Token} :
    ∀ {ps : List (String × String)},
      (∀ kv ∈ ps, ∃ hh, getHeader kv.1 H s = .ok (some hh)) →
      absentHeaders s H ps = .ok [] := by
  intro ps
  induction ps with
  | nil => intro _; rfl
  | cons kv rest ih =>
    intro h
    obtain ⟨k, v⟩ := kv
    obtain ⟨hh, hhh⟩ := h (k, v) (List.mem_cons_self _ _)
    simp only [absentHeaders]
    rw [hhh, ih (fun kv' hkv' => h kv' (List.mem_cons_of_mem _ hkv'))]
    rfl

theorem responseValues_congr {l l' : List Token} {s : Settings}
    (h1 : codeTok l' = codeTok l) (h2 : reasonTok l' = reasonTok l)
    (h3 : headersOf l' = headersOf l) (h4 : bodyTok l' = bodyTok l) :
    responseValues l' s = responseValues l s := by
  unfold responseValues httpValues responsePreamble headersValues bodyValues
  rw [h1, h2, h3, h4]

theorem requestValues_congr {l l' : List Token} {s : Settings}
    (h1 : methodTok l' = methodTok l) (h2 : pathTok l' = pathTok l)
    (h3 : headersOf l' = headersOf l) (h4 : bodyTok l' = bodyTok l) :
    requestValues l' s = requestValues l s := by
  unfold requestValues httpValues requestPreamble headersValues bodyValues
  rw [h1, h2, h3, h4]

/-- Per-token resolution changes only action tokens (and then only their
offset), so every component selector of the message is unchanged. -/
theorem resolve_preserves_selectors {lm : Except PErr Nat} {s : Settings}
    {l l' : List Token} (hmap : mapME (resolveTok lm s) l = .ok l') :
    headersOf l' = headersOf l ∧ wsB l' = wsB l ∧ rawB l' = rawB l ∧
    codeTok l' = codeTok l ∧ bodyTok l' = bodyTok l ∧
    reasonTok l' = reasonTok l ∧ methodTok l' = methodTok l ∧
    pathTok l' = pathTok l := by
  refine ⟨?_, ?_, ?_, ?_, ?_, ?_, ?_, ?_⟩
  · exact mapME_resolveTok_filter hmap _ (fun a o => by cases a <;> rfl)
      (fun a h => by cases a <;> simp_all [Token.isHeaderT, Token.isAction])
  · unfold wsB tokP
    rw [mapME_resolveTok_find hmap _ (fun a o => by cases a <;> rfl)
      (fun a h => by cases a <;> simp_all [Token.isAction])]
  · unfold rawB tokP
    rw [mapME_resolveTok_find hmap _ (fun a o => by cases a <;> rfl)
      (fun a h => by cases a <;> simp_all [Token.isAction])]
  · unfold codeTok tokP
    rw [mapME_resolveTok_find hmap _ (fun a o => by cases a <;> rfl)
      (fun a h => by cases a <;> simp_all [Token.isAction])]
  · unfold bodyTok tokP
    rw [mapME_resolveTok_find hmap _ (fun a o => by cases a <;> rfl)
      (fun a h => by cases a <;> simp_all [Token.isAction])]
  · unfold reasonTok tokP
    rw [mapME_resolveTok_find hmap _ (fun a o => by cases a <;> rfl)
      (fun a h => by cases a <;> simp_all [Token.isAction])]
  · unfold methodTok tokP
    rw [mapME_resolveTok_find hmap _ (fun a o => by cases a <;> rfl)
      (fun a h => by cases a <;> simp_all [Token.isAction])]
  · unfold pathTok tokP
    rw [mapME_resolveTok_find hmap _ (fun a o => by cases a <;> rfl)
      (fun a h => by cases a <;> simp_all [Token.isAction])]

theorem bodyTok_shape {l : List Token} {t : Token} (h : bodyTok l = some t) :
    ∃ v, t = Token.body v := by
  have hp := List.find?_some h
  cases t <;> simp at hp
  exact ⟨_, rfl⟩

/-- The length of the body generator, `0` without a body token — the number
`Content-Length` synthesis would use. -/
def bodyLenOrZero (l : List Token) (s : Settings) : Except PErr Nat :=
  match bodyTok l with
  | some (.body bv) =>
    match bv.get_generator s with
    | .error e => .error e
    | .ok g => .ok g.glen
  | _ => .ok 0

theorem respResolve_parts {m : Response} {s : Settings} {r : Response}
    (h : m.resolve s = .ok r) :
    ∃ t1 t2, wsStageResp m.tokens s m.tokens = .ok t1 ∧
      clStageResp m.tokens s t1 = .ok t2 ∧
      mapME (resolveTok (lengthOf (responseValues t2 s)) s) t2 = .ok r.tokens := by
  unfold Response.resolve at h
  cases h1 : wsStageResp m.tokens s m.tokens with
  | error e => rw [h1] at h; exact Except.noConfusion h
  | ok t1 =>
    simp only [h1] at h
    cases h2 : clStageResp m.tokens s t1 with
    | error e => rw [h2] at h; exact Except.noConfusion h
    | ok t2 =>
      simp only [h2] at h
      cases h3 : mapME (resolveTok (lengthOf (responseValues t2 s)) s) t2 with
      | error e => rw [h3] at h; exact Except.noConfusion h
      | ok rts =>
        simp only [h3] at h
        cases h
        exact ⟨t1, t2, rfl, h2, h3⟩

theorem reqResolve_parts {m : Request} {s : Settings} {r : Request}
    (h : m.resolve s = .ok r) :
    ∃ t1 t2, wsStageReq m.tokens s m.tokens = .ok t1 ∧
      clStageReq m.tokens s t1 = .ok t2 ∧
      mapME (resolveTok (lengthOf (requestValues t2 s)) s) t2 = .ok r.tokens := by
  unfold Request.resolve at h
  cases h1 : wsStageReq m.tokens s m.tokens with
  | error e => rw [h1] at h; exact Except.noConfusion h
  | ok t1 =>
    simp only [h1] at h
    cases h2 : clStageReq m.tokens s t1 with
    | error e => rw [h2] at h; exact Except.noConfusion h
    | ok t2 =>
      simp only [h2] at h
      cases h3 : mapME (resolveTok (lengthOf (requestValues t2 s)) s) t2 with
      | error e => rw [h3] at h; exact Except.noConfusion h
      | ok rts =>
        simp only [h3] at h
        cases h
        exact ⟨t1, t2, rfl, h2, h3⟩

theorem wsStageResp_parts {orig : List Token} {s : Settings}
    {tokens t1 : List Token} (h : wsStageResp orig s tokens = .ok t1) :
    (wsB orig = false ∧ t1 = tokens) ∨
    (wsB orig = true ∧ pyTruthy s.websocket_key = true ∧
     ∃ app, absentHeaders s (headersOf orig)
         (serverHandshakeHeaders (s.websocket_key.getD "")) = .ok app ∧
       t1 = (if (codeTok orig).isSome then tokens
             else pyInsert1 (.code 101) tokens) ++ app) := by
  unfold wsStageResp at h
  cases hws : wsB orig with
  | false =>
    rw [hws] at h
    simp only [Bool.false_eq_true, if_false] at h
    cases h
    exact Or.inl ⟨rfl, rfl⟩
  | true =>
    rw [hws] at h
    simp only [if_true] at h
    cases hkey : pyTruthy s.websocket_key with
    | false => rw [hkey] at h; simp at h
    | true =>
      rw [hkey] at h
      simp only [Bool.not_true, Bool.false_eq_true, if_false] at h
      cases happ : absentHeaders s (headersOf orig)
          (serverHandshakeHeaders (s.websocket_key.getD "")) with
      | error e => rw [happ] at h; exact Except.noConfusion h
      | ok app =>
        simp only [happ] at h
        cases h
        exact Or.inr ⟨rfl, rfl, app, rfl, rfl⟩

theorem wsStageReq_parts {orig : List Token} {s : Settings}
    {tokens t1 : List Token} (h : wsStageReq orig s tokens = .ok t1) :
    (wsB orig = false ∧ t1 = tokens) ∨
    (wsB orig = true ∧
     ∃ app, absentHeaders s (headersOf orig) clientHandshakeHeaders = .ok app ∧
       t1 = (if (methodTok orig).isSome then tokens
             else pyInsert1 (.methodT (mkVL ("GET"))) tokens) ++ app) := by
  unfold wsStageReq at h
  cases hws : wsB orig with
  | false =>
    rw [hws] at h
    simp only [Bool.false_eq_true, if_false] at h
    cases h
    exact Or.inl ⟨rfl, rfl⟩
  | true =>
    rw [hws] at h
    simp only [if_true] at h
    cases happ : absentHeaders s (headersOf orig) clientHandshakeHeaders with
    | error e => rw [happ] at h; exact Except.noConfusion h
    | ok app =>
      simp only [happ] at h
      cases h
      exact Or.inr ⟨rfl, app, rfl, rfl⟩

theorem clStageResp_synth {orig : List Token} {s : Settings}
    {t1 t2 : List Token} {n : Nat}
    (hraw : rawB orig = false)
    (hcl : getHeader ("Content-Length") (headersOf orig) s = .ok none)
    (hlen : bodyLenOrZero orig s = .ok n)
    (h : clStageResp orig s t1 = .ok t2) :
    t2 = t1 ++ [Token.header (mkVL ("Content-Length")) (mkVL (pyNatStr n))] := by
  unfold clStageResp at h
  rw [hraw] at h
  simp only [Bool.false_eq_true, if_false, hcl] at h
  unfold bodyLenOrZero at hlen
  cases hb : bodyTok orig with
  | none =>
    simp only [hb] at h hlen
    cases hlen
    cases h
    rfl
  | some t =>
    obtain ⟨bv, rfl⟩ := bodyTok_shape hb
    simp only [hb] at h hlen
    cases hg : bv.get_generator s with
    | error e => rw [hg] at hlen; exact Except.noConfusion hlen
    | ok g =>
      simp only [hg] at h hlen
      cases hlen
      cases h
      rfl

theorem clStageReq_nobody {orig : List Token} {s : Settings} {t1 t2 : List Token}
    (hraw : rawB orig = false)
    (hcl : getHeader ("Content-Length") (headersOf orig) s = .ok none)
    (hb : bodyTok orig = none)
    (h : clStageReq orig s t1 = .ok t2) :
    t2 = t1 ∨
    t2 = t1 ++ [Token.header (mkVL ("Host")) (mkVL (s.request_host.getD ""))] := by
  unfold clStageReq at h
  rw [hraw] at h
  simp only [Bool.false_eq_true, if_false, hcl, hb] at h
  cases hhost : pyTruthy s.request_host with
  | false =>
    rw [hhost] at h
    simp only [Bool.false_eq_true, if_false] at h
    cases h
    exact Or.inl rfl
  | true =>
    rw [hhost] at h
    simp only [if_true] at h
    cases hfound : getHeader ("Host") (headersOf orig) s with
    | error e => rw [hfound] at h; exact Except.noConfusion h
    | ok found =>
      simp only [hfound] at h
      cases found with
      | some hh => cases h; exact Or.inl rfl
      | none => cases h; exact Or.inr rfl

theorem clStageReq_body {orig : List Token} {s : Settings} {t1 t2 : List Token}
    {bv : Value} {g : Gen}
    (hraw : rawB orig = false)
    (hcl : getHeader ("Content-Length") (headersOf orig) s = .ok none)
    (hb : bodyTok orig = some (.body bv))
    (hg : bv.get_generator s = .ok g)
    (h : clStageReq orig s t1 = .ok t2) :
    Token.header (mkVL ("Content-Length")) (mkVL (pyNatStr g.glen)) ∈ t2 := by
  unfold clStageReq at h
  rw [hraw] at h
  simp only [Bool.false_eq_true, if_false, hcl, hb, hg] at h
  cases hhost : pyTruthy s.request_host with
  | false =>
    rw [hhost] at h
    simp only [Bool.false_eq_true, if_false] at h
    cases h
    exact List.mem_append_right t1 (List.mem_cons_self _ _)
  | true =>
    rw [hhost] at h
    simp only [if_true] at h
    cases hfound : getHeader ("Host") (headersOf orig) s with
    | error e => rw [hfound] at h; exact Except.noConfusion h
    | ok found =>
      simp only [hfound] at h
      cases found with
      | some hh =>
        cases h
        exact List.mem_append_right t1 (List.mem_cons_self _ _)
      | none =>
        cases h
        exact List.mem_append_left _ (List.mem_append_right t1 (List.mem_cons_self _ _))

theorem forall2_mem_right {R : Token → Token → Prop} {b : Token}
    {l l' : List Token} (h : List.Forall₂ R l l') (hmem : b ∈ l') :
    ∃ a ∈ l, R a b := by
  induction h with
  | nil => simp at hmem
  | cons hr htail ih =>
    rename_i a0 b0 as bs
    rcases List.mem_cons.mp hmem with rfl | hmem'
    · exact ⟨a0, List.mem_cons_self _ _, hr⟩
    · obtain ⟨a, ha, hab⟩ := ih hmem'
      exact ⟨a, List.mem_cons_of_mem _ ha, hab⟩

theorem tokP_append_all_false {p : Token → Bool} {l2 : List Token}
    (hall : ∀ t ∈ l2, p t = false) (l1 : List Token) :
    tokP p (l1 ++ l2) = tokP p l1 := by
  cases hf : tokP p l1 with
  | some t => exact tokP_append_some l2 hf
  | none =>
    rw [tokP_append_none l2 hf]
    unfold tokP
    exact List.find?_eq_none.mpr (fun t ht hp => by rw [hall t ht] at hp; exact Bool.noConfusion hp)

theorem tokP_pyInsert1_false {p : Token → Bool} {t : Token} (hp : p t = false) :
    ∀ l, tokP p (pyInsert1 t l) = tokP p l := by
  intro l
  cases l with
  | nil => simp [pyInsert1, tokP, hp]
  | cons x xs =>
    by_cases hx : p x
    · simp [pyInsert1, tokP, List.find?_cons_of_pos, hx]
    · simp [pyInsert1, tokP, List.find?_cons_of_neg, hx, hp]

/-- The Content-Length header token the resolver synthesizes. -/
def clHdr (ln : Nat) : Token :=
  Token.header (mkVL ("Content-Length")) (mkVL (pyNatStr ln))

theorem clStageResp_parts {orig : List Token} {s : Settings} {t1 t2 : List Token}
    (h : clStageResp orig s t1 = .ok t2) :
    (rawB orig = true ∧ t2 = t1) ∨
    (rawB orig = false ∧
      (∃ hh, getHeader ("Content-Length") (headersOf orig) s = .ok (some hh)) ∧
      t2 = t1) ∨
    (rawB orig = false ∧
      getHeader ("Content-Length") (headersOf orig) s = .ok none ∧
      ∃ ln, t2 = t1 ++ [clHdr ln]) := by
  unfold clStageResp at h
  cases hraw : rawB orig with
  | true =>
    rw [hraw] at h
    simp only [if_true] at h
    cases h
    exact Or.inl ⟨rfl, rfl⟩
  | false =>
    rw [hraw] at h
    simp only [Bool.false_eq_true, if_false] at h
    cases hfound : getHeader ("Content-Length") (headersOf orig) s with
    | error e => rw [hfound] at h; exact Except.noConfusion h
    | ok found =>
      simp only [hfound] at h
      cases found with
      | some hh => cases h; exact Or.inr (Or.inl ⟨rfl, ⟨hh, rfl⟩, rfl⟩)
      | none =>
        cases hb : bodyTok orig with
        | none =>
          simp only [hb] at h
          cases h
          exact Or.inr (Or.inr ⟨rfl, rfl, 0, rfl⟩)
        | some t =>
          obtain ⟨bv, rfl⟩ := bodyTok_shape hb
          simp only [hb] at h
          cases hg : bv.get_generator s with
          | error e => rw [hg] at h; exact Except.noConfusion h
          | ok g =>
            simp only [hg] at h
            cases h
            exact Or.inr (Or.inr ⟨rfl, rfl, g.glen, rfl⟩)

/-- The Host header token the request resolver synthesizes. -/
def hostHdr (s : Settings) : Token :=
  Token.header (mkVL ("Host")) (mkVL (s.request_host.getD ""))

theorem clStageReq_parts {orig : List Token} {s : Settings} {t1 t2 : List Token}
    (h : clStageReq orig s t1 = .ok t2) :
    (rawB orig = true ∧ t2 = t1) ∨
    (rawB orig = false ∧
     ∃ clApp hostApp, t2 = (t1 ++ clApp) ++ hostApp ∧
      ((clApp = [] ∧
        ((∃ hh, getHeader ("Content-Length") (headersOf orig) s = .ok (some hh)) ∨
         (getHeader ("Content-Length") (headersOf orig) s = .ok none ∧
          bodyTok orig = none))) ∨
       (getHeader ("Content-Length") (headersOf orig) s = .ok none ∧
        ∃ ln, clApp = [clHdr ln])) ∧
      (hostApp = [] ∨
       (pyTruthy s.request_host = true ∧
        getHeader ("Host") (headersOf orig) s = .ok none ∧
        hostApp = [hostHdr s])) ∧
      (pyTruthy s.request_host = true →
        (∃ hh, getHeader ("Host") (headersOf orig) s = .ok (some hh)) ∨
        hostApp = [hostHdr s])) := by
  unfold clStageReq at h
  cases hraw : rawB orig with
  | true =>
    rw [hraw] at h
    simp only [if_true] at h
    cases h
    exact Or.inl ⟨rfl, rfl⟩
  | false =>
    rw [hraw] at h
    simp only [Bool.false_eq_true, if_false] at h
    have hmain : ∃ clApp,
        ((clApp = [] ∧
          ((∃ hh, getHeader ("Content-Length") (headersOf orig) s = .ok (some hh)) ∨
           (getHeader ("Content-Length") (headersOf orig) s = .ok none ∧
            bodyTok orig = none))) ∨
         (getHeader ("Content-Length") (headersOf orig) s = .ok none ∧
          ∃ ln, clApp = [clHdr ln])) ∧
        (match getHeader ("Content-Length") (headersOf orig) s with
          | .error e => Except.error e
          | .ok (some _) => .ok t1
          | .ok none =>
            match bodyTok orig with
            | some (.body bv) =>
              match bv.get_generator s with
              | .error e => Except.error e
              | .ok g => .ok (t1 ++
                  [Token.header (mkVL ("Content-Length")) (mkVL (pyNatStr g.glen))])
            | _ => .ok t1) = Except.ok (t1 ++ clApp) := by
      cases hfound : getHeader ("Content-Length") (headersOf orig) s with
      | error e =>
        rw [hfound] at h
        exact Except.noConfusion h
      | ok found =>
        cases found with
        | some hh =>
          exact ⟨[], Or.inl ⟨rfl, Or.inl ⟨hh, rfl⟩⟩, by simp [hfound]⟩
        | none =>
          cases hb : bodyTok orig with
          | none =>
            exact ⟨[], Or.inl ⟨rfl, Or.inr ⟨rfl, rfl⟩⟩, by simp [hfound, hb]⟩
          | some t =>
            obtain ⟨bv, rfl⟩ := bodyTok_shape hb
            cases hg : bv.get_generator s with
            | error e =>
              rw [hfound] at h
              simp only [hb, hg] at h
              exact Except.noConfusion h
            | ok g =>
              exact ⟨[clHdr g.glen], Or.inr ⟨rfl, g.glen, rfl⟩,
                by simp [hfound, hb, hg, clHdr]⟩
    obtain ⟨clApp, hclApp, heq⟩ := hmain
    rw [heq] at h
    refine Or.inr ⟨rfl, clApp, ?_⟩
    cases hhost : pyTruthy s.request_host with
    | false =>
      rw [hhost] at h
      simp only [Bool.false_eq_true, if_false] at h
      cases h
      exact ⟨[], by rw [List.append_nil], hclApp, Or.inl rfl,
        fun hc => Bool.noConfusion hc⟩
    | true =>
      rw [hhost] at h
      simp only [if_true] at h
      cases hfh : getHeader ("Host") (headersOf orig) s with
      | error e => rw [hfh] at h; exact Except.noConfusion h
      | ok found =>
        simp only [hfh] at h
        cases found with
        | some hh =>
          cases h
          exact ⟨[], by rw [List.append_nil], hclApp, Or.inl rfl,
            fun _ => Or.inl ⟨hh, rfl⟩⟩
        | none =>
          cases h
          exact ⟨[hostHdr s], rfl, hclApp, Or.inr ⟨rfl, rfl, rfl⟩,
            fun _ => Or.inr rfl⟩

theorem getHeader_none_parts {s : Settings} {name : String} {l1 l2 : List Token}
    (h1 : getHeader name l1 s = .ok none) (h2 : getHeader name l2 s = .ok none) :
    getHeader name (l1 ++ l2) s = .ok none := by
  rw [getHeader_append_of_none l2 h1]
  exact h2

theorem headersOf_append (l1 l2 : List Token) :
    headersOf (l1 ++ l2) = headersOf l1 ++ headersOf l2 := by
  simp [headersOf, toksP, List.filter_append]

theorem headersOf_methodInsert (c : Bool) (v : Value) (l : List Token) :
    headersOf (if c = true then l else pyInsert1 (.methodT v) l) = headersOf l := by
  cases c with
  | true => rfl
  | false =>
    simp only [Bool.false_eq_true, if_false]
    exact filter_pyInsert1 rfl l

theorem clHdr_shape (ln : Nat) : ∃ k v, clHdr ln = Token.header (mkVL k) (mkVL v) :=
  ⟨("Content-Length"), pyNatStr ln, rfl⟩

theorem respStages_decomp {m : Response} {s : Settings} {t1 t2 : List Token}
    (h1 : wsStageResp m.tokens s m.tokens = .ok t1)
    (h2 : clStageResp m.tokens s t1 = .ok t2) :
    ∃ base ext,
      t2 = base ++ ext ∧
      headersOf base = headersOf m.tokens ∧
      wsB base = wsB m.tokens ∧
      rawB base = rawB m.tokens ∧
      (wsB m.tokens = true → (codeTok base).isSome = true) ∧
      ((codeTok m.tokens).isSome = true → codeTok base = codeTok m.tokens) ∧
      (∀ t ∈ ext, ∃ k v, t = Token.header (mkVL k) (mkVL v)) ∧
      (wsB m.tokens = true → pyTruthy s.websocket_key = true) ∧
      (wsB m.tokens = true →
        ∀ kv ∈ serverHandshakeHeaders (s.websocket_key.getD ""),
          (∃ hh, getHeader kv.1 (headersOf m.tokens) s = .ok (some hh)) ∨
          (getHeader kv.1 (headersOf m.tokens) s = .ok none ∧
           Token.header (mkVL kv.1) (mkVL kv.2) ∈ ext)) ∧
      (rawB m.tokens = false →
        (∃ hh, getHeader ("Content-Length") (headersOf m.tokens) s = .ok (some hh)) ∨
        (getHeader ("Content-Length") (headersOf m.tokens) s = .ok none ∧
         ∃ ln, clHdr ln ∈ ext)) := by
  rcases wsStageResp_parts h1 with ⟨hws, rfl⟩ | ⟨hws, hkey, app, happ, rfl⟩
  · rcases clStageResp_parts h2 with ⟨hraw, rfl⟩ | ⟨hraw, hfound, rfl⟩ |
        ⟨hraw, hnone, ln, rfl⟩
    · refine ⟨m.tokens, [], (List.append_nil _).symm, rfl, rfl, rfl, ?_, fun _ => rfl,
        (by simp), ?_, ?_, ?_⟩
      · intro hc; rw [hc] at hws; exact Bool.noConfusion hws
      · intro hc; rw [hc] at hws; exact Bool.noConfusion hws
      · intro hc; rw [hc] at hws; exact Bool.noConfusion hws
      · intro hc; rw [hc] at hraw; exact Bool.noConfusion hraw
    · refine ⟨m.tokens, [], (List.append_nil _).symm, rfl, rfl, rfl, ?_, fun _ => rfl,
        (by simp), ?_, ?_, ?_⟩
      · intro hc; rw [hc] at hws; exact Bool.noConfusion hws
      · intro hc; rw [hc] at hws; exact Bool.noConfusion hws
      · intro hc; rw [hc] at hws; exact Bool.noConfusion hws
      · intro _; exact Or.inl hfound
    · refine ⟨m.tokens, [clHdr ln], rfl, rfl, rfl, rfl, ?_, fun _ => rfl, ?_, ?_, ?_, ?_⟩
      · intro hc; rw [hc] at hws; exact Bool.noConfusion hws
      · intro t ht
        rcases List.mem_singleton.mp ht with rfl
        exact clHdr_shape ln
      · intro hc; rw [hc] at hws; exact Bool.noConfusion hws
      · intro hc; rw [hc] at hws; exact Bool.noConfusion hws
      · intro _; exact Or.inr ⟨hnone, ln, List.mem_singleton.mpr rfl⟩
  · set base := (if (codeTok m.tokens).isSome then m.tokens
      else pyInsert1 (.code 101) m.tokens) with hbase
    have hbh : headersOf base = headersOf m.tokens := by
      rw [hbase]
      by_cases hc : (codeTok m.tokens).isSome
      · rw [if_pos hc]
      · rw [if_neg hc]
        exact filter_pyInsert1 rfl _
    have hbws : wsB base = wsB m.tokens := by
      rw [hbase]
      by_cases hc : (codeTok m.tokens).isSome
      · rw [if_pos hc]
      · rw [if_neg hc]
        unfold wsB
        rw [tokP_pyInsert1_false rfl]
    have hbraw : rawB base = rawB m.tokens := by
      rw [hbase]
      by_cases hc : (codeTok m.tokens).isSome
      · rw [if_pos hc]
      · rw [if_neg hc]
        unfold rawB
        rw [tokP_pyInsert1_false rfl]
    have hbcode : (codeTok base).isSome = true := by
      rw [hbase]
      by_cases hc : (codeTok m.tokens).isSome
      · rw [if_pos hc]; exact hc
      · rw [if_neg hc]
        exact tokP_pyInsert1_isSome rfl _
    have hbcodeEq : (codeTok m.tokens).isSome = true → codeTok base = codeTok m.tokens := by
      intro hc
      rw [hbase, if_pos hc]
    have happsub := absentHeaders_sub happ
    rcases clStageResp_parts h2 with ⟨hraw, rfl⟩ | ⟨hraw, hfound, rfl⟩ |
        ⟨hraw, hnone, ln, rfl⟩
    · refine ⟨base, app, rfl, hbh, hbws, hbraw, fun _ => hbcode, hbcodeEq, ?_,
        fun _ => hkey, ?_, ?_⟩
      · intro t ht
        obtain ⟨kv, _, rfl⟩ := happsub t ht
        exact ⟨kv.1, kv.2, rfl⟩
      · intro _ kv hkv
        rcases absentHeaders_cases happ kv hkv with hl | ⟨hn, hm⟩
        · exact Or.inl hl
        · exact Or.inr ⟨hn, hm⟩
      · intro hc; rw [hc] at hraw; exact Bool.noConfusion hraw
    · refine ⟨base, app, rfl, hbh, hbws, hbraw, fun _ => hbcode, hbcodeEq, ?_,
        fun _ => hkey, ?_, ?_⟩
      · intro t ht
        obtain ⟨kv, _, rfl⟩ := happsub t ht
        exact ⟨kv.1, kv.2, rfl⟩
      · intro _ kv hkv
        rcases absentHeaders_cases happ kv hkv with hl | ⟨hn, hm⟩
        · exact Or.inl hl
        · exact Or.inr ⟨hn, hm⟩
      · intro _; exact Or.inl hfound
    · refine ⟨base, app ++ [clHdr ln], by rw [List.append_assoc], hbh, hbws, hbraw,
        fun _ => hbcode, hbcodeEq, ?_, fun _ => hkey, ?_, ?_⟩
      · intro t ht
        rcases List.mem_append.mp ht with ht' | ht'
        · obtain ⟨kv, _, rfl⟩ := happsub t ht'
          exact ⟨kv.1, kv.2, rfl⟩
        · rcases List.mem_singleton.mp ht' with rfl
          exact clHdr_shape ln
      · intro _ kv hkv
        rcases absentHeaders_cases happ kv hkv with hl | ⟨hn, hm⟩
        · exact Or.inl hl
        · exact Or.inr ⟨hn, List.mem_append_left _ hm⟩
      · intro _
        exact Or.inr ⟨hnone, ln,
          List.mem_append_right _ (List.mem_singleton.mpr rfl)⟩

theorem clientKeys_ne_cl :
    ∀ kv ∈ clientHandshakeHeaders,
      ¬(pyLower (pyUnescape kv.1) = pyLower ("Content-Length")) := by
  decide

theorem hostKey_ne_cl :
    ¬(pyLower (pyUnescape ("Host")) = pyLower ("Content-Length")) := by
  decide

theorem hostHdr_shape (s : Settings) :
    ∃ k v, hostHdr s = Token.header (mkVL k) (mkVL v) :=
  ⟨("Host"), s.request_host.getD "", rfl⟩

theorem reqStages_decomp {m : Request} {s : Settings} {t1 t2 : List Token}
    (h1 : wsStageReq m.tokens s m.tokens = .ok t1)
    (h2 : clStageReq m.tokens s t1 = .ok t2) :
    ∃ base ext,
      t2 = base ++ ext ∧
      headersOf base = headersOf m.tokens ∧
      wsB base = wsB m.tokens ∧
      rawB base = rawB m.tokens ∧
      bodyTok base = bodyTok m.tokens ∧
      (wsB m.tokens = true → (methodTok base).isSome = true) ∧
      (∀ t ∈ ext, ∃ k v, t = Token.header (mkVL k) (mkVL v)) ∧
      (wsB m.tokens = true →
        ∀ kv ∈ clientHandshakeHeaders,
          (∃ hh, getHeader kv.1 (headersOf m.tokens) s = .ok (some hh)) ∨
          (getHeader kv.1 (headersOf m.tokens) s = .ok none ∧
           Token.header (mkVL kv.1) (mkVL kv.2) ∈ ext)) ∧
      (rawB m.tokens = false →
        (∃ hh, getHeader ("Content-Length") (headersOf m.tokens) s = .ok (some hh)) ∨
        (getHeader ("Content-Length") (headersOf m.tokens) s = .ok none ∧
         ∃ ln, clHdr ln ∈ ext) ∨
        (getHeader ("Content-Length") (headersOf m.tokens) s = .ok none ∧
         bodyTok m.tokens = none ∧
         ∀ t ∈ ext, ∃ k v, t = Token.header (mkVL k) (mkVL v) ∧
           ¬(pyLower (pyUnescape k) = pyLower ("Content-Length")))) ∧
      (rawB m.tokens = false → pyTruthy s.request_host = true →
        (∃ hh, getHeader ("Host") (headersOf m.tokens) s = .ok (some hh)) ∨
        (getHeader ("Host") (headersOf m.tokens) s = .ok none ∧
         hostHdr s ∈ ext)) := by
  have hbase0 : ∃ base app,
      t1 = base ++ app ∧
      headersOf base = headersOf m.tokens ∧
      wsB base = wsB m.tokens ∧
      rawB base = rawB m.tokens ∧
      bodyTok base = bodyTok m.tokens ∧
      (wsB m.tokens = true → (methodTok base).isSome = true) ∧
      (∀ t ∈ app, ∃ kv ∈ clientHandshakeHeaders,
        t = Token.header (mkVL kv.1) (mkVL kv.2)) ∧
      (wsB m.tokens = true →
        ∀ kv ∈ clientHandshakeHeaders,
          (∃ hh, getHeader kv.1 (headersOf m.tokens) s = .ok (some hh)) ∨
          (getHeader kv.1 (headersOf m.tokens) s = .ok none ∧
           Token.header (mkVL kv.1) (mkVL kv.2) ∈ app)) := by
    rcases wsStageReq_parts h1 with ⟨hws, rfl⟩ | ⟨hws, app, happ, rfl⟩
    · refine ⟨m.tokens, [], (List.append_nil _).symm, rfl, rfl, rfl, rfl, ?_,
        (by simp), ?_⟩
      · intro hc; rw [hc] at hws; exact Bool.noConfusion hws
      · intro hc; rw [hc] at hws; exact Bool.noConfusion hws
    · refine ⟨(if (methodTok m.tokens).isSome then m.tokens
          else pyInsert1 (.methodT (mkVL ("GET"))) m.tokens), app, rfl, ?_, ?_, ?_, ?_,
          ?_, absentHeaders_sub happ, ?_⟩
      · by_cases hc : (methodTok m.tokens).isSome
        · rw [if_pos hc]
        · rw [if_neg hc]; exact filter_pyInsert1 rfl _
      · by_cases hc : (methodTok m.tokens).isSome
        · rw [if_pos hc]
        · rw [if_neg hc]; unfold wsB; rw [tokP_pyInsert1_false rfl]
      · by_cases hc : (methodTok m.tokens).isSome
        · rw [if_pos hc]
        · rw [if_neg hc]; unfold rawB; rw [tokP_pyInsert1_false rfl]
      · by_cases hc : (methodTok m.tokens).isSome
        · rw [if_pos hc]
        · rw [if_neg hc]; unfold bodyTok; rw [tokP_pyInsert1_false rfl]
      · intro _
        by_cases hc : (methodTok m.tokens).isSome
        · rw [if_pos hc]; exact hc
        · rw [if_neg hc]; exact tokP_pyInsert1_isSome rfl _
      · intro _ kv hkv
        rcases absentHeaders_cases happ kv hkv with hl | ⟨hn, hm⟩
        · exact Or.inl hl
        · exact Or.inr ⟨hn, hm⟩
  obtain ⟨base, app, rfl, hbh, hbws, hbraw, hbbody, hbmeth, happsub, hhs⟩ := hbase0
  rcases clStageReq_parts h2 with ⟨hraw, rfl⟩ | ⟨hraw, clApp, hostApp, rfl, hcl, hhost, hhost2⟩
  · refine ⟨base, app, rfl, hbh, hbws, hbraw, hbbody, hbmeth, ?_, hhs, ?_, ?_⟩
    · intro t ht
      obtain ⟨kv, _, rfl⟩ := happsub t ht
      exact ⟨kv.1, kv.2, rfl⟩
    · intro hc; rw [hc] at hraw; exact Bool.noConfusion hraw
    · intro hc; rw [hc] at hraw; exact Bool.noConfusion hraw
  · have hhostsub : ∀ t ∈ hostApp, t = hostHdr s := by
      rcases hhost with rfl | ⟨_, _, rfl⟩
      · intro t ht; simp at ht
      · intro t ht; exact List.mem_singleton.mp ht
    have hclsub : ∀ t ∈ clApp, ∃ ln, t = clHdr ln := by
      rcases hcl with ⟨rfl, _⟩ | ⟨_, ln, rfl⟩
      · intro t ht; simp at ht
      · intro t ht; exact ⟨ln, List.mem_singleton.mp ht⟩
    refine ⟨base, app ++ (clApp ++ hostApp), by simp [List.append_assoc], hbh, hbws,
      hbraw, hbbody, hbmeth, ?_, ?_, ?_, ?_⟩
    · intro t ht
      rcases List.mem_append.mp ht with ht' | ht'
      · obtain ⟨kv, _, rfl⟩ := happsub t ht'
        exact ⟨kv.1, kv.2, rfl⟩
      · rcases List.mem_append.mp ht' with ht'' | ht''
        · obtain ⟨ln, rfl⟩ := hclsub t ht''
          exact clHdr_shape ln
        · rw [hhostsub t ht'']
          exact hostHdr_shape s
    · intro hws kv hkv
      rcases hhs hws kv hkv with hl | ⟨hn, hm⟩
      · exact Or.inl hl
      · exact Or.inr ⟨hn, List.mem_append_left _ hm⟩
    · intro _
      rcases hcl with ⟨rfl, hcase⟩ | ⟨hnone, ln, rfl⟩
      · rcases hcase with hsome | ⟨hnone, hbody⟩
        · exact Or.inl hsome
        · refine Or.inr (Or.inr ⟨hnone, hbody, ?_⟩)
          intro t ht
          rcases List.mem_append.mp ht with ht' | ht'
          · obtain ⟨kv, hkv, rfl⟩ := happsub t ht'
            exact ⟨kv.1, kv.2, rfl, clientKeys_ne_cl kv hkv⟩
          · rcases List.mem_append.mp ht' with ht'' | ht''
            · simp at ht''
            · rw [hhostsub t ht'']
              exact ⟨("Host"), s.request_host.getD "", rfl, hostKey_ne_cl⟩
      · exact Or.inr (Or.inl ⟨hnone, ln,
          List.mem_append_right _ (List.mem_append_left _ (List.mem_singleton.mpr rfl))⟩)
    · intro _ htr
      rcases hhost with hre | ⟨_, hn, hre⟩
      · rcases hhost2 htr with hsome | hfalse
        · exact Or.inl hsome
        · rw [hre] at hfalse
          exact absurd hfalse (by simp [hostHdr])
      · subst hre
        exact Or.inr ⟨hn, List.mem_append_right _
          (List.mem_append_right _ (List.mem_singleton.mpr rfl))⟩

theorem serverKeys_self (key : String) :
    ∀ kv ∈ serverHandshakeHeaders key, pyLower (pyUnescape kv.1) = pyLower kv.1 := by
  intro kv hkv
  simp only [serverHandshakeHeaders, List.mem_cons, List.not_mem_nil, or_false] at hkv
  rcases hkv with rfl | rfl | rfl
  · decide
  · decide
  · show pyLower (pyUnescape ("Sec-WebSocket-Accept")) = pyLower ("Sec-WebSocket-Accept")
    decide

theorem clientKeys_self :
    ∀ kv ∈ clientHandshakeHeaders, pyLower (pyUnescape kv.1) = pyLower kv.1 := by
  decide

theorem clKey_self : pyLower (pyUnescape ("Content-Length")) = pyLower ("Content-Length") := by
  decide

theorem hostKey_self : pyLower (pyUnescape ("Host")) = pyLower ("Host") := by
  decide

/-- A token list on which resolution is the identity: the three stages of
`Response.resolve` leave it unchanged. -/
theorem respResolve_of_stable {R : List Token} {s : Settings}
    (hws : wsB R = true → pyTruthy s.websocket_key = true ∧
      (codeTok R).isSome = true ∧
      (∀ kv ∈ serverHandshakeHeaders (s.websocket_key.getD ""),
        ∃ hh, getHeader kv.1 (headersOf R) s = .ok (some hh)))
    (hcl : rawB R = false →
      ∃ hh, getHeader ("Content-Length") (headersOf R) s = .ok (some hh))
    (hmap : ∀ t ∈ R, resolveTok (lengthOf (responseValues R s)) s t = .ok t) :
    Response.resolve ⟨R⟩ s = .ok ⟨R⟩ := by
  have hws' : wsStageResp R s R = .ok R := by
    unfold wsStageResp
    cases hw : wsB R with
    | false => simp
    | true =>
      obtain ⟨hkey, hcode, hall⟩ := hws hw
      rw [hkey]
      simp only [Bool.not_true, Bool.false_eq_true, if_false, if_true, if_pos hcode]
      rw [absentHeaders_all_some hall]
      simp
  have hcl' : clStageResp R s R = .ok R := by
    unfold clStageResp
    cases hr : rawB R with
    | true => simp
    | false =>
      obtain ⟨hh, hsome⟩ := hcl hr
      simp [hsome]
  have hm : mapME (resolveTok (lengthOf (responseValues R s)) s) R = .ok R :=
    mapME_of_fixed hmap
  unfold Response.resolve
  dsimp only
  rw [hws']
  dsimp only
  rw [hcl']
  dsimp only
  rw [hm]

/-- `Response.resolve` is idempotent. -/
theorem respResolve_idem {m : Response} {s : Settings} {r : Response}
    (h : m.resolve s = .ok r) : r.resolve s = .ok r := by
  obtain ⟨t1, t2, h1, h2, h3⟩ := respResolve_parts h
  obtain ⟨base, ext, heq, hbh, hbws, hbraw, hbcode, _, hext, hkey, hhs, hclp⟩ :=
    respStages_decomp h1 h2
  have hsel := resolve_preserves_selectors h3
  have hextHdr : ∀ t ∈ ext, ∃ k' v', t = Token.header (mkVL k') (mkVL v') := hext
  -- selector values of the resolved list
  have hHdrR : headersOf r.tokens = headersOf m.tokens ++ ext := by
    rw [hsel.1, heq, headersOf_append, hbh]
    congr 1
    simp only [headersOf, toksP]
    refine List.filter_eq_self.mpr ?_
    intro t ht
    obtain ⟨k', v', rfl⟩ := hext t ht
    rfl
  have hwsR : wsB r.tokens = wsB m.tokens := by
    rw [hsel.2.1, heq]
    unfold wsB
    rw [tokP_append_all_false (fun t ht => by
      obtain ⟨k', v', rfl⟩ := hext t ht; rfl)]
    exact hbws
  have hrawR : rawB r.tokens = rawB m.tokens := by
    rw [hsel.2.2.1, heq]
    unfold rawB
    rw [tokP_append_all_false (fun t ht => by
      obtain ⟨k', v', rfl⟩ := hext t ht; rfl)]
    exact hbraw
  have hcodeR : codeTok r.tokens = codeTok base := by
    rw [hsel.2.2.2.1, heq]
    unfold codeTok
    rw [tokP_append_all_false (fun t ht => by
      obtain ⟨k', v', rfl⟩ := hext t ht; rfl)]
  have hvals : responseValues r.tokens s = responseValues t2 s :=
    responseValues_congr hsel.2.2.2.1 hsel.2.2.2.2.2.1 hsel.1 hsel.2.2.2.2.1
  have hfixed : ∀ t ∈ r.tokens,
      resolveTok (lengthOf (responseValues r.tokens s)) s t = .ok t := by
    intro t ht
    by_cases ha : t.isAction = true
    · obtain ⟨a, hain, hab⟩ := forall2_mem_right (mapME_forall2 h3) ht
      rcases resolveTok_ok_shape hab with ⟨hna, rfl⟩ | ⟨haa, L, k, hlm, rfl⟩
      · rw [hna] at ha; exact Bool.noConfusion ha
      · have hlm' : lengthOf (responseValues r.tokens s) = .ok L := by
          rw [hvals]; exact hlm
        rw [resolveTok.eq_def, if_pos (by rw [isAction_setOff]; exact haa), hlm']
        simp only [offOf_setOff haa, resolveOff, setOff_setOff]
    · exact resolveTok_not_action (by revert ha; cases t.isAction <;> simp)
  have hres := respResolve_of_stable (R := r.tokens) (s := s) ?_ ?_ hfixed
  · cases r; exact hres
  · intro hw
    rw [hwsR] at hw
    refine ⟨hkey hw, ?_, ?_⟩
    · rw [hcodeR]; exact hbcode hw
    · intro kv hkv
      rcases hhs hw kv hkv with ⟨hh, hsome⟩ | ⟨hn, hmem⟩
      · exact ⟨hh, by rw [hHdrR]; exact getHeader_append_some ext hsome⟩
      · rw [hHdrR, getHeader_append_of_none ext hn]
        exact getHeader_lit_some hextHdr hmem (serverKeys_self _ kv hkv)
  · intro hr
    rw [hrawR] at hr
    rcases hclp hr with ⟨hh, hsome⟩ | ⟨hn, ln, hmem⟩
    · exact ⟨hh, by rw [hHdrR]; exact getHeader_append_some ext hsome⟩
    · rw [hHdrR, getHeader_append_of_none ext hn]
      exact getHeader_lit_some hextHdr hmem clKey_self

/-- A token list on which the three stages of `Request.resolve` are the
identity. -/
theorem reqResolve_of_stable {R : List Token} {s : Settings}
    (hws : wsB R = true → (methodTok R).isSome = true ∧
      (∀ kv ∈ clientHandshakeHeaders,
        ∃ hh, getHeader kv.1 (headersOf R) s = .ok (some hh)))
    (hcl : rawB R = false →
      (∃ hh, getHeader ("Content-Length") (headersOf R) s = .ok (some hh)) ∨
      (getHeader ("Content-Length") (headersOf R) s = .ok none ∧ bodyTok R = none))
    (hhost : rawB R = false → pyTruthy s.request_host = true →
      ∃ hh, getHeader ("Host") (headersOf R) s = .ok (some hh))
    (hmap : ∀ t ∈ R, resolveTok (lengthOf (requestValues R s)) s t = .ok t) :
    Request.resolve ⟨R⟩ s = .ok ⟨R⟩ := by
  have hws' : wsStageReq R s R = .ok R := by
    unfold wsStageReq
    cases hw : wsB R with
    | false => simp
    | true =>
      obtain ⟨hmeth, hall⟩ := hws hw
      simp only [if_true, if_pos hmeth]
      rw [absentHeaders_all_some hall]
      simp
  have hcl' : clStageReq R s R = .ok R := by
    unfold clStageReq
    cases hr : rawB R with
    | true => simp
    | false =>
      have hhostStep :
          (if pyTruthy s.request_host = true then
            match getHeader ("Host") (headersOf R) s with
            | .error e => Except.error e
            | .ok (some _) => .ok R
            | .ok none =>
              .ok (R ++ [Token.header (mkVL ("Host")) (mkVL (s.request_host.getD ""))])
           else .ok R) = Except.ok R := by
        cases hh : pyTruthy s.request_host with
        | false => simp
        | true =>
          obtain ⟨hhh, hsome⟩ := hhost hr hh
          simp [hsome]
      rcases hcl hr with ⟨hh, hsome⟩ | ⟨hnone, hbody⟩
      · simp only [Bool.false_eq_true, if_false, hsome]
        exact hhostStep
      · simp only [Bool.false_eq_true, if_false, hnone, hbody]
        exact hhostStep
  have hm : mapME (resolveTok (lengthOf (requestValues R s)) s) R = .ok R :=
    mapME_of_fixed hmap
  unfold Request.resolve
  dsimp only
  rw [hws']
  dsimp only
  rw [hcl']
  dsimp only
  rw [hm]

/-- `Request.resolve` is idempotent. -/
theorem reqResolve_idem {m : Request} {s : Settings} {r : Request}
    (h : m.resolve s = .ok r) : r.resolve s = .ok r := by
  obtain ⟨t1, t2, h1, h2, h3⟩ := reqResolve_parts h
  obtain ⟨base, ext, heq, hbh, hbws, hbraw, hbbody, hbmeth, hext, hhs, hclp, hhostp⟩ :=
    reqStages_decomp h1 h2
  have hsel := resolve_preserves_selectors h3
  have hHdrR : headersOf r.tokens = headersOf m.tokens ++ ext := by
    rw [hsel.1, heq, headersOf_append, hbh]
    congr 1
    simp only [headersOf, toksP]
    refine List.filter_eq_self.mpr ?_
    intro t ht
    obtain ⟨k', v', rfl⟩ := hext t ht
    rfl
  have hwsR : wsB r.tokens = wsB m.tokens := by
    rw [hsel.2.1, heq]
    unfold wsB
    rw [tokP_append_all_false (fun t ht => by
      obtain ⟨k', v', rfl⟩ := hext t ht; rfl)]
    exact hbws
  have hrawR : rawB r.tokens = rawB m.tokens := by
    rw [hsel.2.2.1, heq]
    unfold rawB
    rw [tokP_append_all_false (fun t ht => by
      obtain ⟨k', v', rfl⟩ := hext t ht; rfl)]
    exact hbraw
  have hmethR : methodTok r.tokens = methodTok base := by
    rw [hsel.2.2.2.2.2.2.1, heq]
    unfold methodTok
    rw [tokP_append_all_false (fun t ht => by
      obtain ⟨k', v', rfl⟩ := hext t ht; rfl)]
  have hbodyR : bodyTok r.tokens = bodyTok m.tokens := by
    rw [hsel.2.2.2.2.1, heq]
    unfold bodyTok
    rw [tokP_append_all_false (fun t ht => by
      obtain ⟨k', v', rfl⟩ := hext t ht; rfl)]
    exact hbbody
  have hvals : requestValues r.tokens s = requestValues t2 s :=
    requestValues_congr hsel.2.2.2.2.2.2.1 hsel.2.2.2.2.2.2.2 hsel.1 hsel.2.2.2.2.1
  have hfixed : ∀ t ∈ r.tokens,
      resolveTok (lengthOf (requestValues r.tokens s)) s t = .ok t := by
    intro t ht
    by_cases ha : t.isAction = true
    · obtain ⟨a, hain, hab⟩ := forall2_mem_right (mapME_forall2 h3) ht
      rcases resolveTok_ok_shape hab with ⟨hna, rfl⟩ | ⟨haa, L, k, hlm, rfl⟩
      · rw [hna] at ha; exact Bool.noConfusion ha
      · have hlm' : lengthOf (requestValues r.tokens s) = .ok L := by
          rw [hvals]; exact hlm
        rw [resolveTok.eq_def, if_pos (by rw [isAction_setOff]; exact haa), hlm']
        simp only [offOf_setOff haa, resolveOff, setOff_setOff]
    · exact resolveTok_not_action (by revert ha; cases t.isAction <;> simp)
  have hres := reqResolve_of_stable (R := r.tokens) (s := s) ?_ ?_ ?_ hfixed
  · cases r; exact hres
  · intro hw
    rw [hwsR] at hw
    refine ⟨?_, ?_⟩
    · rw [hmethR]; exact hbmeth hw
    · intro kv hkv
      rcases hhs hw kv hkv with ⟨hh, hsome⟩ | ⟨hn, hmem⟩
      · exact ⟨hh, by rw [hHdrR]; exact getHeader_append_some ext hsome⟩
      · rw [hHdrR, getHeader_append_of_none ext hn]
        exact getHeader_lit_some hext hmem (clientKeys_self kv hkv)
  · intro hr
    rw [hrawR] at hr
    rcases hclp hr with ⟨hh, hsome⟩ | ⟨hn, ln, hmem⟩ | ⟨hn, hbody, hkeys⟩
    · exact Or.inl ⟨hh, by rw [hHdrR]; exact getHeader_append_some ext hsome⟩
    · refine Or.inl ?_
      rw [hHdrR, getHeader_append_of_none ext hn]
      exact getHeader_lit_some hext hmem clKey_self
    · refine Or.inr ⟨?_, ?_⟩
      · rw [hHdrR]
        exact getHeader_none_parts hn (getHeader_lit_none hkeys)
      · rw [hbodyR]; exact hbody
  · intro hr htr
    rw [hrawR] at hr
    rcases hhostp hr htr with ⟨hh, hsome⟩ | ⟨hn, hmem⟩
    · exact ⟨hh, by rw [hHdrR]; exact getHeader_append_some ext hsome⟩
    · rw [hHdrR, getHeader_append_of_none ext hn]
      exact getHeader_lit_some hext hmem hostKey_self

theorem natDigitsGo_append : ∀ (f n : Nat) (acc : List Char),
    natDigitsGo n f acc = natDigitsGo n f [] ++ acc := by
  intro f
  induction f with
  | zero => intro n acc; rfl
  | succ f ih =>
    intro n acc
    simp only [natDigitsGo]
    by_cases h : n < 10
    · rw [if_pos h, if_pos h]; rfl
    · rw [if_neg h, if_neg h, ih (n / 10) (Char.ofNat (48 + n % 10) :: acc),
        ih (n / 10) [Char.ofNat (48 + n % 10)], List.append_assoc]
      rfl

theorem natDigitsGo_fuel : ∀ (n : Nat), ∀ (f : Nat), 0 < f → n < 10 ^ f →
    ∀ acc, natDigitsGo n f acc = natDigitsGo n (n + 1) acc := by
  intro n
  induction n using Nat.strong_induction_on with
  | _ n ih =>
    intro f hf hlt acc
    obtain ⟨f', rfl⟩ : ∃ f', f = f' + 1 := ⟨f - 1, by omega⟩
    by_cases h : n < 10
    · simp only [natDigitsGo, if_pos h]
    · have hf' : 0 < f' := by
        by_contra hc
        have : f' = 0 := by omega
        subst this
        simp at hlt
        omega
      have hdivlt : n / 10 < 10 ^ f' := by
        have h1 : n < 10 ^ f' * 10 := by
          rw [← pow_succ]
          exact hlt
        omega
      have hdn : n / 10 < n := Nat.div_lt_self (by omega) (by omega)
      have hpow : n / 10 < 10 ^ n := lt_of_le_of_lt (Nat.div_le_self n 10)
        (Nat.lt_pow_self (by omega : (1:ℕ) < 10) n)
      simp only [natDigitsGo, if_neg h]
      rw [ih (n / 10) hdn f' hf' hdivlt, ← ih (n / 10) hdn n (by omega) hpow]

theorem natDigits_small {n : Nat} (h : n < 10) :
    natDigits n = [Char.ofNat (48 + n)] := by
  rw [natDigits]
  simp [natDigitsGo, h, Nat.mod_eq_of_lt h]

theorem natDigits_step {n : Nat} (h : 10 ≤ n) :
    natDigits n = natDigits (n / 10) ++ [Char.ofNat (48 + n % 10)] := by
  have hnot : ¬ n < 10 := by omega
  rw [natDigits, natDigits]
  conv =>
    lhs
    rw [show n + 1 = n + 1 from rfl]
  simp only [natDigitsGo, if_neg hnot]
  rw [natDigitsGo_fuel (n / 10) n (by omega)
      (lt_of_le_of_lt (Nat.div_le_self n 10) (Nat.lt_pow_self (by omega : (1:ℕ) < 10) n))]
  exact natDigitsGo_append _ _ _

theorem char_digit_toNat {k : Nat} (h : k < 10) :
    (Char.ofNat (48 + k)).toNat = 48 + k := by
  interval_cases k <;> decide

theorem char_digit_isDigit {k : Nat} (h : k < 10) :
    (Char.ofNat (48 + k)).isDigit = true := by
  interval_cases k <;> decide

theorem natDigits_all_digits : ∀ n, ∀ c ∈ natDigits n, c.isDigit = true := by
  intro n
  induction n using Nat.strong_induction_on with
  | _ n ih =>
    by_cases h : n < 10
    · rw [natDigits_small h]
      intro c hc
      rcases List.mem_singleton.mp hc with rfl
      exact char_digit_isDigit h
    · rw [natDigits_step (by omega)]
      intro c hc
      rcases List.mem_append.mp hc with hc' | hc'
      · exact ih (n / 10) (Nat.div_lt_self (by omega) (by omega)) c hc'
      · rcases List.mem_singleton.mp hc' with rfl
        exact char_digit_isDigit (Nat.mod_lt _ (by omega))

theorem natDigits_ne_nil (n : Nat) : natDigits n ≠ [] := by
  by_cases h : n < 10
  · rw [natDigits_small h]; simp
  · rw [natDigits_step (by omega)]; simp

theorem digitsVal_append_digit (l : List Char) (c : Char) :
    digitsVal (l ++ [c]) = 10 * digitsVal l + (c.toNat - 48) := by
  simp [digitsVal, List.foldl_append]

theorem digitsVal_natDigits : ∀ n, digitsVal (natDigits n) = n := by
  intro n
  induction n using Nat.strong_induction_on with
  | _ n ih =>
    by_cases h : n < 10
    · rw [natDigits_small h]
      show 10 * 0 + ((Char.ofNat (48 + n)).toNat - 48) = n
      rw [char_digit_toNat h]
      omega
    · rw [natDigits_step (by omega), digitsVal_append_digit,
        ih (n / 10) (Nat.div_lt_self (by omega) (by omega)),
        char_digit_toNat (Nat.mod_lt _ (by omega))]
      omega

theorem takeWhile_all_append {p : Char → Bool} : ∀ (l r : List Char),
    (∀ c ∈ l, p c = true) →
    (match r with | [] => True | c :: _ => p c = false) →
    (l ++ r).takeWhile p = l ∧ (l ++ r).dropWhile p = r := by
  intro l
  induction l with
  | nil =>
    intro r _ hr
    cases r with
    | nil => exact ⟨rfl, rfl⟩
    | cons c cs =>
      simp only at hr
      simp [List.takeWhile_cons, List.dropWhile_cons, hr]
  | cons a l ih =>
    intro r hl hr
    have hpa : p a = true := hl a (List.mem_cons_self _ _)
    obtain ⟨h1, h2⟩ := ih r (fun c hc => hl c (List.mem_cons_of_mem _ hc)) hr
    simp only [List.cons_append, List.takeWhile_cons, List.dropWhile_cons, hpa]
    simp [h1, h2]

theorem toList_append (a b : String) : (a ++ b).toList = a.toList ++ b.toList := by
  cases a; cases b; rfl

theorem toList_sappend (a b : String) : (String.append a b).toList = a.toList ++ b.toList := by
  cases a; cases b; rfl

theorem pyNatStr_toList (n : Nat) : (pyNatStr n).toList = natDigits n :=
  rfl

theorem tail_match_of_headD {tail : List Char} :
    (tail.headD ("x").front).isDigit = false →
    (match tail with | [] => True | c :: _ => c.isDigit = false) := by
  cases tail with
  | nil => intro _; trivial
  | cons c t => intro h; exact h

theorem findDtKeyGo_self : ∀ dt ∈ datatypeKeys,
    findDtKeyGo datatypeKeys dt.toList = some (dt, []) := by
  decide

theorem parseGenerateChars_digits (u : Nat) (tail r2 r3 : List Char) (un dt : String)
    (htail : (tail.headD ("x").front).isDigit = false)
    (hu : parseUnit tail = (un, r2))
    (hd : parseDatatype r2 = some (dt, r3)) :
    parseGenerateChars ('@' :: (natDigits u ++ tail)) =
      some (.generate u un dt, r3) := by
  obtain ⟨htw, hdw⟩ :=
    takeWhile_all_append (natDigits u) tail (natDigits_all_digits u)
      (tail_match_of_headD htail)
  have hne : (natDigits u).isEmpty = false := by
    cases h : natDigits u with
    | nil => exact absurd h (natDigits_ne_nil u)
    | cons a t => rfl
  simp only [parseGenerateChars, htw, hdw, hne, Bool.false_eq_true, if_false,
    hu, hd, digitsVal_natDigits]

theorem roundtrip_generate_cases (u : Nat) (un dt : String)
    (htail : ((((if un = "b" then "" else un).toList
        ++ (if dt = "bytes" then "" else String.append (",") dt).toList)).headD
        ("x").front).isDigit = false)
    (hu : parseUnit ((if un = "b" then "" else un).toList
        ++ (if dt = "bytes" then "" else String.append (",") dt).toList)
        = (un, (if dt = "bytes" then "" else String.append (",") dt).toList))
    (hd : parseDatatype ((if dt = "bytes" then "" else String.append (",") dt).toList)
        = some (dt, [])) :
    parseGenerateFull (Value.spec (.generate u un dt)).toList
      = some (.generate u un dt) := by
  have hspec : (Value.spec (.generate u un dt)).toList
      = '@' :: (natDigits u ++ ((if un = "b" then "" else un).toList
          ++ (if dt = "bytes" then "" else String.append (",") dt).toList)) := by
    simp only [Value.spec, toList_append, toList_sappend, List.append_assoc,
      pyNatStr_toList]
    rfl
  rw [hspec]
  simp only [parseGenerateFull, parseGenerateChars_digits u _ _ _ un dt htail hu hd]

theorem pairwise_insertAct (x : Token) : ∀ {l : List Token},
    List.Pairwise (fun a b => offLE a.offOf b.offOf = true) l →
    List.Pairwise (fun a b => offLE a.offOf b.offOf = true) (insertAct x l) := by
  intro l
  induction l with
  | nil =>
    intro _
    simp [insertAct]
  | cons y ys ih =>
    intro h
    rw [List.pairwise_cons] at h
    obtain ⟨hy, hys⟩ := h
    by_cases hlt : offLT y.offOf x.offOf
    · simp only [insertAct, hlt, if_true]
      rw [List.pairwise_cons]
      refine ⟨?_, ih hys⟩
      intro z hz
      rcases mem_insertAct.mp hz with rfl | hzmem
      · exact offLE_of_not_lt (offLT_asymm hlt)
      · exact hy z hzmem
    · have hlt' : offLT y.offOf x.offOf = false := by
        revert hlt; cases offLT y.offOf x.offOf <;> simp
      simp only [insertAct, hlt', Bool.false_eq_true, if_false]
      rw [List.pairwise_cons]
      refine ⟨?_, List.pairwise_cons.mpr ⟨hy, hys⟩⟩
      intro z hz
      rcases List.mem_cons.mp hz with rfl | hzmem
      · exact offLE_of_not_lt hlt'
      · exact offLE_trans (offLE_of_not_lt hlt') (hy z hzmem)

theorem pySort_pairwise : ∀ l : List Token,
    List.Pairwise (fun a b => offLE a.offOf b.offOf = true) (pySort l) := by
  intro l
  induction l with
  | nil => simp [pySort]
  | cons x xs ih => exact pairwise_insertAct x ih

theorem filter_insertAct_of_ne {x : Token} {o : OffsetV} (hx : x.offOf ≠ o) :
    ∀ l : List Token,
      (insertAct x l).filter (fun t => decide (t.offOf = o)) =
        l.filter (fun t => decide (t.offOf = o)) := by
  intro l
  induction l with
  | nil => simp [insertAct, hx]
  | cons y ys ih =>
    by_cases hlt : offLT y.offOf x.offOf
    · simp only [insertAct, hlt, if_true, List.filter_cons]
      rw [ih]
    · have hlt' : offLT y.offOf x.offOf = false := by
        revert hlt; cases offLT y.offOf x.offOf <;> simp
      simp only [insertAct, hlt', Bool.false_eq_true, if_false, List.filter_cons]
      simp [hx]

theorem filter_insertAct_of_eq {x : Token} {o : OffsetV} (hx : x.offOf = o) :
    ∀ l : List Token,
      (insertAct x l).filter (fun t => decide (t.offOf = o)) =
        x :: l.filter (fun t => decide (t.offOf = o)) := by
  intro l
  induction l with
  | nil => simp [insertAct, hx]
  | cons y ys ih =>
    by_cases hlt : offLT y.offOf x.offOf
    · have hne : y.offOf ≠ o := by
        rw [← hx]; exact offLT_ne hlt
      simp only [insertAct, hlt, if_true, List.filter_cons]
      simp [hne, ih]
    · have hlt' : offLT y.offOf x.offOf = false := by
        revert hlt; cases offLT y.offOf x.offOf <;> simp
      simp only [insertAct, hlt', Bool.false_eq_true, if_false, List.filter_cons]
      simp [hx]

theorem pySort_stable (o : OffsetV) : ∀ l : List Token,
    (pySort l).filter (fun t => decide (t.offOf = o)) =
      l.filter (fun t => decide (t.offOf = o)) := by
  intro l
  induction l with
  | nil => simp [pySort]
  | cons x xs ih =>
    by_cases hx : x.offOf = o
    · show (insertAct x (pySort xs)).filter _ = _
      rw [filter_insertAct_of_eq hx, ih, List.filter_cons]
      simp [hx]
    · show (insertAct x (pySort xs)).filter _ = _
      rw [filter_insertAct_of_ne hx, ih, List.filter_cons]
      simp [hx]

theorem insertAct_perm (x : Token) : ∀ l : List Token,
    (insertAct x l).Perm (x :: l) := by
  intro l
  induction l with
  | nil => simp [insertAct]
  | cons y ys ih =>
    by_cases hlt : offLT y.offOf x.offOf
    · simp only [insertAct, hlt, if_true]
      exact (ih.cons y).trans (List.Perm.swap x y ys)
    · have hlt' : offLT y.offOf x.offOf = false := by
        revert hlt; cases offLT y.offOf x.offOf <;> simp
      simp [insertAct, hlt']

theorem pySort_perm : ∀ l : List Token, (pySort l).Perm l := by
  intro l
  induction l with
  | nil => simp [pySort]
  | cons x xs ih => exact (insertAct_perm x (pySort xs)).trans (ih.cons x)

theorem wvInner_split (bs : Int) (v : String) (sofar : Int) :
    ∀ (acts : List ActT) (offst : Int),
      acts = (wvInner bs v sofar offst acts).trace ++
        (wvInner bs v sofar offst acts).remaining := by
  intro acts
  induction acts with
  | nil => intro offst; simp [wvInner]
  | cons a rest ih =>
    intro offst
    by_cases hc : a.off < sofar + (v.length : Int)
    · cases hk : a.kind with
      | pause arg =>
        simp only [wvInner, hc, if_true, hk]
        have := ih (offst + (a.off - sofar - offst - offst))
        simp only [InnerRes.trace, InnerRes.remaining] at this ⊢
        rw [List.cons_append]
        rw [← this]
      | disconnect =>
        simp [wvInner, hc, hk]
      | inject cs =>
        simp only [wvInner, hc, if_true, hk]
        have := ih (offst + (a.off - sofar - offst - offst))
        simp only [InnerRes.trace, InnerRes.remaining] at this ⊢
        rw [List.cons_append]
        rw [← this]
    · simp [wvInner, hc]

theorem wvDrain_split (bs : Int) : ∀ acts : List ActT,
    ∃ rest, acts = (wvDrain bs acts).trace ++ rest ∧
      ((wvDrain bs acts).disc = false → rest = []) := by
  intro acts
  induction acts with
  | nil => exact ⟨[], by simp [wvDrain]⟩
  | cons a tl ih =>
    obtain ⟨rest, h1, h2⟩ := ih
    cases hk : a.kind with
    | pause arg =>
      refine ⟨rest, ?_, ?_⟩
      · simp only [wvDrain, hk, EmitRes.trace, List.cons_append]
        rw [← h1]
      · intro hd
        simp only [wvDrain, hk, EmitRes.disc] at hd
        exact h2 hd
    | disconnect =>
      refine ⟨tl, ?_, ?_⟩
      · simp [wvDrain, hk]
      · intro hd
        simp [wvDrain, hk] at hd
    | inject cs =>
      refine ⟨rest, ?_, ?_⟩
      · simp only [wvDrain, hk, EmitRes.trace, List.cons_append]
        rw [← h1]
      · intro hd
        simp only [wvDrain, hk, EmitRes.disc] at hd
        exact h2 hd

theorem wvOuter_split (bs : Int) : ∀ (vals : List String) (acts : List ActT) (sofar : Int),
    ∃ rest, acts = (wvOuter bs sofar vals acts).trace ++ rest ∧
      ((wvOuter bs sofar vals acts).disc = false → rest = []) := by
  intro vals
  induction vals with
  | nil => intro acts sofar; exact wvDrain_split bs acts
  | cons v vs ih =>
    intro acts sofar
    have hsplit := wvInner_split bs v sofar acts 0
    cases hd : (wvInner bs v sofar 0 acts).disc
    · obtain ⟨rest2, h1, h2⟩ :=
        ih (wvInner bs v sofar 0 acts).remaining (sofar + (v.length : Int))
      refine ⟨rest2, ?_, ?_⟩
      · simp only [wvOuter, hd, Bool.false_eq_true, if_false, EmitRes.trace]
        rw [List.append_assoc, ← h1, ← hsplit]
      · intro hdisc
        simp only [wvOuter, hd, Bool.false_eq_true, if_false, EmitRes.disc] at hdisc
        exact h2 hdisc
    · refine ⟨(wvInner bs v sofar 0 acts).remaining, ?_, ?_⟩
      · simp only [wvOuter, hd, if_true, EmitRes.trace]
        exact hsplit
      · intro hdisc
        simp only [wvOuter, hd, if_true, EmitRes.disc] at hdisc
        exact Bool.noConfusion hdisc

/-! ### Claim theorems -/

/-- C1, counterexample.  The claim says every non-Raw message without a
user Content-Length gets one appended, 0 without a body, and that
`get:/:h'X'='Y'` serializes with `Content-Length: 0`.  On the code,
`Request.resolve` appends Content-Length only when a body token is present:
this bodyless request resolves to itself, serializes without any
Content-Length header, and its resolved token list has none. -/
theorem c1_counterexample :
    exReq.resolve cS = .ok exReq ∧
    stringOf (requestValues exReq.tokens cS) =
      .ok ("GET / HTTP/1.1\r\nX: Y\r\n\r\n") ∧
    exReq.tokens.any clHeaderB = false := by
  decide

/-- C2.  `write_values` passes `a[0] - sofar - offset` as the chunk **end**
to `send_chunk` (whose documented contract takes an exclusive upper bound),
so once `offset` is nonzero — i.e. from the second action inside the same
value on — the pre-action chunk stops `offset` bytes early.  On
`vals = ["abcdef"]` with injects at offsets 1 and 3 the code emits
`aXbYcdef`; the spec's contract (apply each action at its offset, counting
only value bytes) requires `aXbcYdef`. -/
theorem c2_write_values_bug :
    (write_values [("abcdef")] [⟨1, .inject ("X")⟩, ⟨3, .inject ("Y")⟩] 1024).out =
      "aXbYcdef" ∧
    specStream ("abcdef") [⟨1, .inject ("X")⟩, ⟨3, .inject ("Y")⟩] =
      ("aXbcYdef", false) ∧
    ("aXbYcdef" : String) ≠ "aXbcYdef" := by
  decide

/-- C3, counterexample.  The claim says a WS response resolves without any
Content-Length synthesis.  On the code the `if not self.raw` block runs
regardless of WS: resolving `ws` with a websocket key yields Code 101, the
handshake headers, **and** a synthesized `Content-Length: 0`. -/
theorem c3_counterexample :
    wsResp.resolve cSws =
      .ok ⟨[.ws, .code 101,
            .header (mkVL ("Upgrade")) (mkVL ("websocket")),
            .header (mkVL ("Connection")) (mkVL ("Upgrade")),
            .header (mkVL ("Sec-WebSocket-Accept")) (mkVL (wsAccept ("KEY"))),
            .header (mkVL ("Content-Length")) (mkVL (pyNatStr 0))]⟩ ∧
    (match wsResp.resolve cSws with
     | .ok r => r.tokens.any clHeaderB
     | .error _ => false) = true := by
  decide

/-- C4, counterexample.  The claim says a frozen message contains no
`Generate` and no `File` value tokens.  `ValueFile.freeze` returns `self`:
freezing a raw response with a `ValueFile` body returns the message
unchanged, `ValueFile` token included. -/
theorem c4_counterexample :
    Msg.freeze (.rs fileResp) cS = .ok (.rs fileResp) ∧
    hasFileTok fileResp.tokens = true := by
  decide

/-- C5, counterexample.  The parser produces `Method(ValueLiteral "get")`
from the input `'get'`; `Method.spec` strips the quotes because the
lower-cased inner text is a keyword, and re-parsing the stripped keyword
canonicalizes to `Method(ValueLiteral "GET")` — structurally different from
the original node, so `parse(spec(t)) == t` fails. -/
theorem c5_counterexample :
    parseMethodFull quotGet = some (.methodT (mkVL ("get"))) ∧
    methodSpec (mkVL ("get")) = "get" ∧
    parseMethodFull (methodSpec (mkVL ("get"))).toList =
      some (.methodT (mkVL ("GET"))) ∧
    Token.methodT (mkVL ("GET")) ≠ Token.methodT (mkVL ("get")) := by
  decide

/-- C5, amended.  The round trip does hold on the sublanguage the spec can
promise: every `ValueGenerate` value node (any size, any of the four units,
any `DATATYPES` key) re-parses from its `spec()` to an equal node, and every
Method token built from an upper-cased method keyword re-parses from its
`spec()` to an equal token. -/
theorem c5_amended_roundtrip :
    (∀ (u : Nat) (un dt : String), un ∈ [("b"), ("k"), ("m"), ("g")] →
      dt ∈ datatypeKeys →
      parseGenerateFull (Value.spec (.generate u un dt)).toList
        = some (.generate u un dt)) ∧
    (∀ kw ∈ httpMethods,
      parseMethodFull (methodSpec (mkVL (pyUpper kw))).toList =
        some (.methodT (mkVL (pyUpper kw)))) := by
  constructor
  · intro u un dt hun hdt
    fin_cases hun <;> fin_cases hdt <;>
      exact roundtrip_generate_cases u _ _ (by decide) (by decide) (by decide)
  · decide

/-- C5, amended, witness: a concrete instantiation, `@5k,digits`. -/
theorem c5_amended_roundtrip_witness :
    parseGenerateFull (Value.spec (.generate 5 ("k") ("digits"))).toList
      = some (.generate 5 ("k") ("digits")) :=
  c5_amended_roundtrip.1 5 ("k") ("digits") (by decide) (by decide)

/-- C6.  Resolution is idempotent: resolving an already-resolved message is
the identity — no synthetic token (Content-Length, Host, Code 101, Method,
handshake header) is duplicated, and the now-numeric action offsets are left
unchanged. -/
theorem c6_resolve_idempotent (m : Msg) (s : Settings) (r : Msg)
    (h : m.resolve s = .ok r) : r.resolve s = .ok r := by
  cases m with
  | rq mq =>
    simp only [Msg.resolve] at h
    cases hr0 : mq.resolve s with
    | error e => rw [hr0] at h; exact Except.noConfusion h
    | ok r0 =>
      simp only [hr0] at h
      cases h
      simp only [Msg.resolve, reqResolve_idem hr0]
  | rs mr =>
    simp only [Msg.resolve] at h
    cases hr0 : mr.resolve s with
    | error e => rw [hr0] at h; exact Except.noConfusion h
    | ok r0 =>
      simp only [hr0] at h
      cases h
      simp only [Msg.resolve, respResolve_idem hr0]

/-- Witness for C6: the resolved form of `200` resolves to itself. -/
theorem c6_resolve_idempotent_witness :
    (Msg.rs ⟨[.code 200, .header (mkVL ("Content-Length")) (mkVL (pyNatStr 0))]⟩).resolve cS =
      .ok (.rs ⟨[.code 200, .header (mkVL ("Content-Length")) (mkVL (pyNatStr 0))]⟩) :=
  c6_resolve_idempotent (.rs r200) cS
    (.rs ⟨[.code 200, .header (mkVL ("Content-Length")) (mkVL (pyNatStr 0))]⟩)
    (by decide)

/-- C7.  Constructing the generator of a `ValueFile` fails with
`FileAccessDenied` exactly when the static directory is unset (Python-falsy),
or unconstrained access is off and the resolved path
`normpath(abspath(join(staticdir, expanduser(path))))` does not begin with
the static directory, or the resolved path is not a regular file; otherwise
it yields the file generator over the resolved path. -/
theorem c7_file_access_policy (s : Settings) (p : String) :
    ((Value.file p).get_generator s = .error .fileAccessDenied ↔
      (pyTruthy s.staticdir = false ∨
       (s.unconstrained_file_access = false ∧
        pyStartsWith (resolvedPath s p) (s.staticdir.getD "") = false) ∨
       s.os.isfile (resolvedPath s p) = false)) ∧
    (pyTruthy s.staticdir = true →
     (s.unconstrained_file_access = true ∨
      pyStartsWith (resolvedPath s p) (s.staticdir.getD "") = true) →
     s.os.isfile (resolvedPath s p) = true →
     (Value.file p).get_generator s =
       .ok ⟨(s.os.contents (resolvedPath s p)).length,
            s.os.contents (resolvedPath s p)⟩) := by
  unfold Value.get_generator fileGenerator resolvedPath
  cases h1 : pyTruthy s.staticdir <;>
    cases h2 : s.unconstrained_file_access <;>
      cases h3 : pyStartsWith (s.os.normAbsJoin (s.staticdir.getD "")
          (s.os.expanduser p)) (s.staticdir.getD "") <;>
        cases h4 : s.os.isfile (s.os.normAbsJoin (s.staticdir.getD "")
            (s.os.expanduser p)) <;>
          simp [h1, h2, h3, h4]

/-- C1, amended.  When `Raw` is absent and the user supplied no
Content-Length header: a Response gets `Content-Length: <len(body)>`
appended, with `0` when there is no body; a Request gets it appended only
when a Body token is present — a bodyless request resolves with **no**
Content-Length header at all (so `get:/:h'X'='Y'` serializes without one,
contrary to the claim's example). -/
theorem c1_amended_content_length (m : Msg) (s : Settings) (r : Msg) (n : Nat)
    (hraw : rawB m.tokens = false)
    (hcl : getHeader ("Content-Length") (headersOf m.tokens) s = .ok none)
    (hlen : bodyLenOrZero m.tokens s = .ok n)
    (hres : m.resolve s = .ok r) :
    (m.isResponse = true ∨ (bodyTok m.tokens).isSome = true →
      Token.header (mkVL ("Content-Length")) (mkVL (pyNatStr n)) ∈ r.tokens) ∧
    (m.isResponse = false → bodyTok m.tokens = none →
      getHeader ("Content-Length") (headersOf r.tokens) s = .ok none) := by
  cases m with
  | rs mr =>
    simp only [Msg.tokens] at hraw hcl hlen
    have hres' : ∃ r0, mr.resolve s = .ok r0 ∧ r = .rs r0 := by
      simp only [Msg.resolve] at hres
      cases hr0 : mr.resolve s with
      | error e => rw [hr0] at hres; exact Except.noConfusion hres
      | ok r0 => simp only [hr0] at hres; cases hres; exact ⟨r0, rfl, rfl⟩
    obtain ⟨r0, hr0, rfl⟩ := hres'
    obtain ⟨t1, t2, h1, h2, h3⟩ := respResolve_parts hr0
    have ht2 := clStageResp_synth hraw hcl hlen h2
    constructor
    · intro _
      have hmem : Token.header (mkVL ("Content-Length")) (mkVL (pyNatStr n)) ∈ t2 := by
        rw [ht2]
        exact List.mem_append_right t1 (List.mem_cons_self _ _)
      refine forall2_mem_fixed (mapME_forall2 h3) hmem ?_
      intro b hb
      rw [resolveTok_not_action (by rfl)] at hb
      cases hb
      rfl
    · intro hc
      exact Bool.noConfusion hc
  | rq mq =>
    simp only [Msg.tokens] at hraw hcl hlen
    have hres' : ∃ r0, mq.resolve s = .ok r0 ∧ r = .rq r0 := by
      simp only [Msg.resolve] at hres
      cases hr0 : mq.resolve s with
      | error e => rw [hr0] at hres; exact Except.noConfusion hres
      | ok r0 => simp only [hr0] at hres; cases hres; exact ⟨r0, rfl, rfl⟩
    obtain ⟨r0, hr0, rfl⟩ := hres'
    obtain ⟨t1, t2, h1, h2, h3⟩ := reqResolve_parts hr0
    constructor
    · intro hor
      rcases hor with hresp | hbody
      · exact Bool.noConfusion hresp
      · simp only [Msg.tokens] at hbody
        obtain ⟨t, hb⟩ := Option.isSome_iff_exists.mp hbody
        obtain ⟨bv, rfl⟩ := bodyTok_shape hb
        have hgen : ∃ g, bv.get_generator s = .ok g ∧ n = g.glen := by
          unfold bodyLenOrZero at hlen
          simp only [hb] at hlen
          cases hg : bv.get_generator s with
          | error e => rw [hg] at hlen; exact Except.noConfusion hlen
          | ok g => simp only [hg] at hlen; cases hlen; exact ⟨g, rfl, rfl⟩
        obtain ⟨g, hg, rfl⟩ := hgen
        have hmem := clStageReq_body hraw hcl hb hg h2
        refine forall2_mem_fixed (mapME_forall2 h3) hmem ?_
        intro b hb2
        rw [resolveTok_not_action (by rfl)] at hb2
        cases hb2
        rfl
    · intro _ hb
      simp only [Msg.tokens] at hb ⊢
      have hsel := resolve_preserves_selectors h3
      have hh : headersOf r0.tokens = headersOf t2 := hsel.1
      rw [hh]
      have ht1none : getHeader ("Content-Length") (headersOf t1) s = .ok none := by
        rcases wsStageReq_parts h1 with ⟨hws, rfl⟩ | ⟨hws, app, happ, rfl⟩
        · exact hcl
        · rw [headersOf_append, headersOf_methodInsert]
          refine getHeader_none_parts hcl (getHeader_lit_none ?_)
          intro t ht
          have ht' : t ∈ app := by
            simp only [headersOf, toksP] at ht
            exact List.mem_of_mem_filter ht
          obtain ⟨kv, hkv, rfl⟩ := absentHeaders_sub happ t ht'
          exact ⟨kv.1, kv.2, rfl, clientKeys_ne_cl kv hkv⟩
      rcases clStageReq_nobody hraw hcl hb h2 with rfl | rfl
      · exact ht1none
      · rw [headersOf_append]
        refine getHeader_none_parts ht1none (getHeader_lit_none ?_)
        intro t ht
        have ht' : t ∈ [Token.header (mkVL ("Host")) (mkVL (s.request_host.getD ""))] := by
          simp only [headersOf, toksP] at ht
          exact List.mem_of_mem_filter ht
        rcases List.mem_singleton.mp ht' with rfl
        exact ⟨("Host"), s.request_host.getD "", rfl, hostKey_ne_cl⟩

/-- Witness for C1 (amended), Response side: resolving `200` appends
`Content-Length: 0`. -/
theorem c1_amended_content_length_witness :
    Token.header (mkVL ("Content-Length")) (mkVL (pyNatStr 0)) ∈
      (Msg.rs ⟨[.code 200, .header (.lit ("Content-Length")) (.lit ("0"))]⟩).tokens :=
  (c1_amended_content_length (.rs r200) cS
      (.rs ⟨[.code 200, .header (.lit ("Content-Length")) (.lit ("0"))]⟩) 0
      (by decide) (by decide) (by decide) (by decide)).1 (Or.inl (by decide))

theorem mem_pyInsert1_self (t : Token) (l : List Token) : t ∈ pyInsert1 t l := by
  cases l <;> simp [pyInsert1]

/-- C3, amended.  A WS response (without Raw, without a user Content-Length)
resolves to Code 101, the user tokens, the appended server-handshake headers
**and additionally a synthesized Content-Length header** (body length, `0`
without a body): the `WS` marker does not suppress Content-Length synthesis —
only `Raw` does. -/
theorem c3_amended_ws_content_length (m : Response) (s : Settings) (r : Response)
    (n : Nat)
    (hws : wsB m.tokens = true)
    (hraw : rawB m.tokens = false)
    (hcl : getHeader ("Content-Length") (headersOf m.tokens) s = .ok none)
    (hlen : bodyLenOrZero m.tokens s = .ok n)
    (hres : m.resolve s = .ok r) :
    Token.header (mkVL ("Content-Length")) (mkVL (pyNatStr n)) ∈ r.tokens ∧
    (codeTok m.tokens = none → Token.code 101 ∈ r.tokens) ∧
    (∀ kv ∈ serverHandshakeHeaders (s.websocket_key.getD ""),
      getHeader kv.1 (headersOf m.tokens) s = .ok none →
      Token.header (mkVL kv.1) (mkVL kv.2) ∈ r.tokens) := by
  obtain ⟨t1, t2, h1, h2, h3⟩ := respResolve_parts hres
  have ht2 := clStageResp_synth hraw hcl hlen h2
  have hfix : ∀ (t : Token), t.isAction = false → t ∈ t2 → t ∈ r.tokens := by
    intro t hna hmem
    refine forall2_mem_fixed (mapME_forall2 h3) hmem ?_
    intro b hb
    rw [resolveTok_not_action hna] at hb
    cases hb
    rfl
  rcases wsStageResp_parts h1 with ⟨hws', _⟩ | ⟨_, _, app, happ, ht1⟩
  · rw [hws] at hws'; exact Bool.noConfusion hws'
  refine ⟨?_, ?_, ?_⟩
  · refine hfix _ rfl ?_
    rw [ht2]
    exact List.mem_append_right t1 (List.mem_cons_self _ _)
  · intro hcode
    refine hfix _ rfl ?_
    rw [ht2, ht1]
    refine List.mem_append_left _ (List.mem_append_left _ ?_)
    rw [hcode]
    simp only [Option.isSome_none, Bool.false_eq_true, if_false]
    exact mem_pyInsert1_self _ _
  · intro kv hkv hnone
    rcases absentHeaders_cases happ kv hkv with ⟨hh, hsome⟩ | ⟨_, hmem⟩
    · rw [hnone] at hsome
      exact Option.noConfusion (Except.ok.inj hsome)
    · refine hfix _ rfl ?_
      rw [ht2, ht1]
      exact List.mem_append_left _ (List.mem_append_right _ hmem)

/-- Witness for C3 (amended) at the `ws` response under a websocket key. -/
theorem c3_amended_ws_content_length_witness :
    Token.header (mkVL ("Content-Length")) (mkVL (pyNatStr 0)) ∈
      (⟨[.ws, .code 101,
         .header (mkVL ("Upgrade")) (mkVL ("websocket")),
         .header (mkVL ("Connection")) (mkVL ("Upgrade")),
         .header (mkVL ("Sec-WebSocket-Accept")) (mkVL (wsAccept ("KEY"))),
         .header (mkVL ("Content-Length")) (mkVL (pyNatStr 0))]⟩ : Response).tokens :=
  (c3_amended_ws_content_length wsResp cSws
      ⟨[.ws, .code 101,
        .header (mkVL ("Upgrade")) (mkVL ("websocket")),
        .header (mkVL ("Connection")) (mkVL ("Upgrade")),
        .header (mkVL ("Sec-WebSocket-Accept")) (mkVL (wsAccept ("KEY"))),
        .header (mkVL ("Content-Length")) (mkVL (pyNatStr 0))]⟩ 0
      (by decide) (by decide) (by decide) (by decide) (by decide)).1

/-- C4, amended.  For every message `m` and settings `s`, `m.freeze(s)`
contains no `ValueGenerate` token: every generated value has been replaced by
a `ValueLiteral` capturing the realized bytes.  `ValueFile` tokens are left
in place (`ValueFile.freeze` returns `self`), so file-backed values — stable
as long as the file is — are the one exception to literalization. -/
theorem c4_amended_freeze_no_generate (m : Msg) (s : Settings) (r : Msg)
    (h : m.freeze s = .ok r) : hasGenerateTok r.tokens = false := by
  unfold Msg.freeze at h
  cases hres : m.resolve s with
  | error e => simp only [hres] at h; exact Except.noConfusion h
  | ok r0 =>
    simp only [hres] at h
    cases hmap : mapME (freezeTok s) r0.tokens with
    | error e => simp only [hmap] at h; exact Except.noConfusion h
    | ok ts =>
      simp only [hmap] at h
      have hr : r.tokens = ts := by
        cases m <;> cases h <;> rfl
      rw [hr]
      unfold hasGenerateTok
      simp only [List.any_eq_false]
      intro t ht hv
      obtain ⟨t0, _, hft⟩ := mapME_mem hmap t ht
      obtain ⟨v, hvmem, hvgen⟩ := List.any_eq_true.mp hv
      have hfv := freezeTok_values hft v hvmem
      rw [hfv] at hvgen
      exact Bool.noConfusion hvgen

/-- Witness for C4 (amended) at the concrete response `200:b@5`: its frozen
form (body literalized, Content-Length synthesized) has no generate token. -/
theorem c4_amended_freeze_no_generate_witness :
    hasGenerateTok
      (Msg.tokens (.rs ⟨[.code 200, .body (.lit ""),
        .header (.lit ("Content-Length")) (.lit ("5"))]⟩)) = false :=
  c4_amended_freeze_no_generate (.rs genResp) cS
    (.rs ⟨[.code 200, .body (.lit ""),
      .header (.lit ("Content-Length")) (.lit ("5"))]⟩) (by decide)

/-- C8.  For a message context of length `L`, `_Action.resolve` returns a
copy of the action whose offset is numeric: `random.randrange(L)` (a uniform
draw below `L`, by the randrange contract) for the symbolic offset `r`,
`L + 1` for the symbolic offset `a`, and the offset itself when it is already
an integer. -/
theorem c8_action_offset_resolution (s : Settings) (m : Msg) (L : Nat)
    (hL : lengthOf (m.values s) = .ok L) (hpos : 0 < L)
    (hrand : ∀ n, 0 < n → s.randrange n < n) :
    ∀ t : Token, t.isAction = true →
      ∃ k : Nat,
        resolveTok (lengthOf (m.values s)) s t = .ok (t.setOff (.num k)) ∧
        (t.offOf = .r → k = s.randrange L ∧ k < L) ∧
        (t.offOf = .a → k = L + 1) ∧
        (∀ n, t.offOf = .num n → k = n) := by
  intro t ht
  have hres : resolveTok (lengthOf (m.values s)) s t =
      .ok (t.setOff (resolveOff s L t.offOf)) := by
    simp [resolveTok, ht, hL]
  cases hoff : t.offOf with
  | num n =>
    refine ⟨n, ?_, ?_, ?_, ?_⟩
    · rw [hres, hoff]; rfl
    · intro hc; exact OffsetV.noConfusion hc
    · intro hc; exact OffsetV.noConfusion hc
    · intro n' h'; cases h'; rfl
  | r =>
    refine ⟨s.randrange L, ?_, ?_, ?_, ?_⟩
    · rw [hres, hoff]; rfl
    · intro _; exact ⟨rfl, hrand L hpos⟩
    · intro hc; exact OffsetV.noConfusion hc
    · intro n' h'; exact OffsetV.noConfusion h'
  | a =>
    refine ⟨L + 1, ?_, ?_, ?_, ?_⟩
    · rw [hres, hoff]; rfl
    · intro hc; exact OffsetV.noConfusion hc
    · intro _; rfl
    · intro n' h'; exact OffsetV.noConfusion h'

/-- Witness for C8: resolving `d r` against the length-19 response `200`
under the concrete settings. -/
theorem c8_action_offset_resolution_witness :
    ∃ k : Nat,
      resolveTok (lengthOf ((Msg.rs r200).values cS)) cS (.disconnectAt .r) =
        .ok ((Token.disconnectAt .r).setOff (.num k)) ∧
      (Token.offOf (.disconnectAt .r) = .r → k = cS.randrange 19 ∧ k < 19) ∧
      (Token.offOf (.disconnectAt .r) = .a → k = 19 + 1) ∧
      (∀ n, Token.offOf (.disconnectAt .r) = .num n → k = n) :=
  c8_action_offset_resolution cS (.rs r200) 19 (by decide) (by decide)
    (fun n hn => hn) (.disconnectAt .r) (by decide)

/-- C9.  `serve` prepares its action list as `pySort` of the message's action
tokens followed by lowering: that sort is ascending in the offsets, it is a
permutation, and it is stable (for every offset, the subsequence of actions
at that offset equals the source subsequence).  `write_values` then
dispatches actions in exactly the order of the prepared list: its dispatch
trace is always an initial segment of the input list, and the whole list
when no disconnect fires. -/
theorem c9_action_ordering :
    (∀ l : List Token,
      List.Pairwise (fun a b => offLE a.offOf b.offOf = true) (pySort l)) ∧
    (∀ (l : List Token) (o : OffsetV),
      (pySort l).filter (fun t => decide (t.offOf = o)) =
        l.filter (fun t => decide (t.offOf = o))) ∧
    (∀ l : List Token, (pySort l).Perm l) ∧
    (∀ (bs : Int) (vals : List String) (acts : List ActT),
      ∃ rest, acts = (write_values vals acts bs).trace ++ rest ∧
        ((write_values vals acts bs).disc = false →
          (write_values vals acts bs).trace = acts)) := by
  refine ⟨pySort_pairwise, fun l o => pySort_stable o l, pySort_perm, ?_⟩
  intro bs vals acts
  obtain ⟨rest, h1, h2⟩ := wvOuter_split bs vals acts 0
  refine ⟨rest, h1, ?_⟩
  intro hd
  rw [h2 hd, List.append_nil] at h1
  exact h1.symm

/-- Witness for C9: on a concrete emission without disconnect, the dispatch
trace is exactly the prepared action list. -/
theorem c9_action_ordering_witness :
    (write_values [("ab")] [⟨0, .pause (.secs 1)⟩, ⟨5, .inject ("Z")⟩] 1024).trace =
      [⟨0, .pause (.secs 1)⟩, ⟨5, .inject ("Z")⟩] := by
  obtain ⟨rest, h1, h2⟩ :=
    c9_action_ordering.2.2.2 1024 [("ab")] [⟨0, .pause (.secs 1)⟩, ⟨5, .inject ("Z")⟩]
  exact h2 (by decide)

/-- Witness for C7 at a concrete settings/path: access is granted and the
generator carries the contents of the resolved path. -/
theorem c7_file_access_policy_witness :
    (Value.file ("f")).get_generator wS =
      .ok ⟨(wS.os.contents (resolvedPath wS ("f"))).length,
           wS.os.contents (resolvedPath wS ("f"))⟩ :=
  (c7_file_access_policy wS ("f")).2 (by decide) (Or.inr (by decide)) (by decide)

theorem hGet_append {h : List Token} {i : Nat} {t : Token} (ext : List Token)
    (hh : hGet h i = some t) : hGet (h ++ ext) i = some t := by
  have hlt : i < h.length := (List.get?_eq_some.mp hh).1
  unfold hGet at hh ⊢
  rw [List.get?_append hlt]
  exact hh

theorem hGet_concat (h : List Token) (t : Token) :
    hGet (h ++ [t]) h.length = some t := by
  unfold hGet
  exact List.get?_concat_length h t

theorem readAll_extend {ids : List Nat} : ∀ {h ts}, readAll h ids = some ts →
    ∀ ext, readAll (h ++ ext) ids = some ts := by
  induction ids with
  | nil =>
    intro h ts hr ext
    cases hr
    rfl
  | cons i is ih =>
    intro h ts hr ext
    unfold readAll at hr ⊢
    split at hr
    · rename_i t ts' hg hrest
      cases hr
      rw [hGet_append ext hg, ih hrest ext]
    · cases hr


theorem readAll_concat {h : List Token} : ∀ {ids₁ ids₂ ts₁ ts₂},
    readAll h ids₁ = some ts₁ → readAll h ids₂ = some ts₂ →
    readAll h (ids₁ ++ ids₂) = some (ts₁ ++ ts₂) := by
  intro ids₁
  induction ids₁ with
  | nil =>
    intro ids₂ ts₁ ts₂ h1 h2
    cases h1
    exact h2
  | cons i is ih =>
    intro ids₂ ts₁ ts₂ h1 h2
    simp only [readAll] at h1
    split at h1
    · rename_i t ts' hg hrest
      cases h1
      simp only [List.cons_append, readAll, List.append_eq, hg, ih hrest h2]
    · cases h1

theorem hAllocList_fst : ∀ (ts h : List Token), (hAllocList h ts).1 = h ++ ts := by
  intro ts
  induction ts with
  | nil => intro h; simp [hAllocList]
  | cons t ts ih =>
    intro h
    show (hAllocList (h ++ [t]) ts).1 = h ++ t :: ts
    rw [ih (h ++ [t]), List.append_assoc]
    rfl

theorem hAllocList_read : ∀ (ts h : List Token),
    readAll (hAllocList h ts).1 (hAllocList h ts).2 = some ts := by
  intro ts
  induction ts with
  | nil => intro h; rfl
  | cons t ts ih =>
    intro h
    show readAll (hAllocList (h ++ [t]) ts).1
        (h.length :: (hAllocList (h ++ [t]) ts).2) = some (t :: ts)
    have hg : hGet (hAllocList (h ++ [t]) ts).1 h.length = some t := by
      rw [hAllocList_fst]
      exact hGet_append ts (hGet_concat h t)
    simp only [readAll, hg, ih (h ++ [t])]

theorem readAll_insert1 {h : List Token} {ids ts j c}
    (hr : readAll h ids = some ts) (hg : hGet h j = some c) :
    readAll h (pyInsert1 j ids) = some (pyInsert1 c ts) := by
  cases ids with
  | nil =>
    cases hr
    show readAll h [j] = some [c]
    simp only [readAll, hg]
  | cons i is =>
    simp only [readAll] at hr
    split at hr
    · rename_i t ts' hgi hrest
      cases hr
      show readAll h (i :: j :: is) = some (t :: c :: ts')
      simp only [readAll, hgi, hg, hrest]
    · cases hr

theorem set_concat_length : ∀ (l : List Token) (a b : Token),
    (l ++ [a]).set l.length b = l ++ [b] := by
  intro l
  induction l with
  | nil => intro a b; rfl
  | cons x xs ih =>
    intro a b
    show x :: (xs ++ [a]).set xs.length b = x :: (xs ++ [b])
    rw [ih]

theorem setOff_num_self {t : Token} {n : Nat} (hoff : t.offOf = .num n) :
    t.setOff (.num n) = t := by
  cases t <;> first
  | rfl
  | (simp only [Token.offOf] at hoff
     simp only [Token.setOff]
     rw [hoff])

theorem hResolveTok_corr (lm : Except PErr Nat) (s : Settings) (h : List Token)
    (i : Nat) (t : Token) (hget : hGet h i = some t)
    (res : Except PErr Token) : resolveTok lm s t = res →
    (match res with
     | .error e => hResolveTok lm s h i = .error e
     | .ok rt => ∃ h' j, hResolveTok lm s h i = .ok (h', j) ∧
         (∃ ext, h' = h ++ ext) ∧ hGet h' j = some rt) := by
  intro hres
  rw [resolveTok.eq_def] at hres
  cases hact : t.isAction with
  | false =>
    simp only [hact, Bool.false_eq_true, if_false] at hres
    subst hres
    refine ⟨h, i, ?_, ⟨[], (List.append_nil h).symm⟩, hget⟩
    simp only [hResolveTok, hget, hact, Bool.false_eq_true, if_false]
  | true =>
    simp only [hact, reduceIte] at hres
    cases lm with
    | error e =>
      subst hres
      show hResolveTok (.error e) s h i = .error e
      simp only [hResolveTok, hget, hact, reduceIte]
    | ok l =>
      subst hres
      cases hoff : t.offOf with
      | r =>
        refine ⟨h ++ [t.setOff (.num (s.randrange l))], h.length, ?_,
          ⟨[t.setOff (.num (s.randrange l))], rfl⟩, ?_⟩
        · show hResolveTok (.ok l) s h i
            = .ok (h ++ [t.setOff (.num (s.randrange l))], h.length)
          simp only [hResolveTok, hget, hact, reduceIte, hoff]
          rw [set_concat_length]
        · exact hGet_concat h _
      | a =>
        refine ⟨h ++ [t.setOff (.num (l + 1))], h.length, ?_,
          ⟨[t.setOff (.num (l + 1))], rfl⟩, ?_⟩
        · show hResolveTok (.ok l) s h i = .ok (h ++ [t.setOff (.num (l + 1))], h.length)
          simp only [hResolveTok, hget, hact, reduceIte, hoff]
          rw [set_concat_length]
        · exact hGet_concat h _
      | num n =>
        refine ⟨h ++ [t], h.length, ?_, ⟨[t], rfl⟩, ?_⟩
        · show hResolveTok (.ok l) s h i = .ok (h ++ [t], h.length)
          simp only [hResolveTok, hget, hact, reduceIte, hoff]
        · show hGet (h ++ [t]) h.length = some (t.setOff (.num n))
          rw [setOff_num_self hoff]
          exact hGet_concat h t

theorem hMapResolve_corr (lm : Except PErr Nat) (s : Settings) :
    ∀ (ids : List Nat) (h ts : List Token), readAll h ids = some ts →
    ∀ (res : Except PErr (List Token)), mapME (resolveTok lm s) ts = res →
    (match res with
     | .error e => hMapResolve lm s h ids = .error e
     | .ok rts => ∃ h' js, hMapResolve lm s h ids = .ok (h', js) ∧
         (∃ ext, h' = h ++ ext) ∧ readAll h' js = some rts) := by
  intro ids
  induction ids with
  | nil =>
    intro h ts hr res hres
    cases hr
    subst hres
    exact ⟨h, [], rfl, ⟨[], (List.append_nil h).symm⟩, rfl⟩
  | cons i is ih =>
    intro h ts hr res hres
    simp only [readAll] at hr
    split at hr
    case h_2 => cases hr
    rename_i t ts' hget hrest
    cases hr
    simp only [mapME] at hres
    cases hrt : resolveTok lm s t with
    | error e =>
      simp only [hrt] at hres
      subst hres
      have hcorr : hResolveTok lm s h i = .error e :=
        hResolveTok_corr lm s h i t hget _ hrt
      show hMapResolve lm s h (i :: is) = .error e
      simp only [hMapResolve, hcorr]
    | ok rt =>
      simp only [hrt] at hres
      have hcorr : ∃ h' j, hResolveTok lm s h i = .ok (h', j) ∧
          (∃ ext, h' = h ++ ext) ∧ hGet h' j = some rt :=
        hResolveTok_corr lm s h i t hget _ hrt
      obtain ⟨h₁, j, hh1, ⟨ext₁, hext₁⟩, hgj⟩ := hcorr
      have hrest₁ : readAll h₁ is = some ts' := by
        rw [hext₁]
        exact readAll_extend hrest ext₁
      cases hm : mapME (resolveTok lm s) ts' with
      | error e =>
        simp only [hm] at hres
        subst hres
        have htail : hMapResolve lm s h₁ is = .error e := ih h₁ ts' hrest₁ _ hm
        show hMapResolve lm s h (i :: is) = .error e
        simp only [hMapResolve, hh1, htail]
      | ok ys =>
        simp only [hm] at hres
        subst hres
        have htail : ∃ h' js, hMapResolve lm s h₁ is = .ok (h', js) ∧
            (∃ ext, h' = h₁ ++ ext) ∧ readAll h' js = some ys :=
          ih h₁ ts' hrest₁ _ hm
        obtain ⟨h₂, js, hh2, ⟨ext₂, hext₂⟩, hjs⟩ := htail
        have hgj₂ : hGet h₂ j = some rt := by
          rw [hext₂]
          exact hGet_append ext₂ hgj
        refine ⟨h₂, j :: js, ?_, ⟨ext₁ ++ ext₂, ?_⟩, ?_⟩
        · show hMapResolve lm s h (i :: is) = .ok (h₂, j :: js)
          simp only [hMapResolve, hh1, hh2]
        · rw [hext₂, hext₁, List.append_assoc]
        · show readAll h₂ (j :: js) = some (rt :: ys)
          simp only [readAll, hgj₂, hjs]

theorem hWsStageResp_corr (orig : List Token) (s : Settings) (h : List Token)
    (ids : List Nat) (cur : List Token) (hread : readAll h ids = some cur)
    (res : Except PErr (List Token)) : wsStageResp orig s cur = res →
    (match res with
     | .error e => hWsStageResp orig s h ids = .error e
     | .ok t1 => ∃ h₁ ids₁, hWsStageResp orig s h ids = .ok (h₁, ids₁) ∧
         (∃ ext, h₁ = h ++ ext) ∧ readAll h₁ ids₁ = some t1) := by
  intro hres
  unfold wsStageResp at hres
  cases hws : wsB orig with
  | false =>
    simp only [hws, Bool.false_eq_true, if_false] at hres
    subst hres
    refine ⟨h, ids, ?_, ⟨[], (List.append_nil h).symm⟩, hread⟩
    simp only [hWsStageResp, hws, Bool.false_eq_true, if_false]
  | true =>
    simp only [hws, reduceIte] at hres
    cases hkey : !pyTruthy s.websocket_key with
    | true =>
      simp only [hkey, reduceIte] at hres
      subst hres
      show hWsStageResp orig s h ids = .error .renderError
      simp only [hWsStageResp, hws, hkey, reduceIte]
    | false =>
      simp only [hkey, Bool.false_eq_true, if_false] at hres
      cases hab : absentHeaders s (headersOf orig)
          (serverHandshakeHeaders (s.websocket_key.getD "")) with
      | error e =>
        simp only [hab] at hres
        subst hres
        show hWsStageResp orig s h ids = .error e
        simp only [hWsStageResp, hws, hkey, Bool.false_eq_true, if_false,
          reduceIte, hab]
      | ok app =>
        simp only [hab] at hres
        subst hres
        cases hcode : (codeTok orig).isSome with
        | true =>
          simp only [hcode, reduceIte]
          refine ⟨(hAllocList h app).1, ids ++ (hAllocList h app).2, ?_, ?_, ?_⟩
          · show hWsStageResp orig s h ids = _
            simp only [hWsStageResp, hws, hkey, Bool.false_eq_true, if_false,
              reduceIte, hab, hcode]
          · rw [hAllocList_fst]
            exact ⟨app, rfl⟩
          · have h1 := hAllocList_read app h
            rw [hAllocList_fst] at h1 ⊢
            exact readAll_concat (readAll_extend hread app) h1
        | false =>
          simp only [hcode, Bool.false_eq_true, if_false]
          refine ⟨(hAllocList (h ++ [Token.code 101]) app).1,
            pyInsert1 h.length ids ++ (hAllocList (h ++ [Token.code 101]) app).2,
            ?_, ?_, ?_⟩
          · show hWsStageResp orig s h ids = _
            simp only [hWsStageResp, hws, hkey, Bool.false_eq_true, if_false,
              reduceIte, hab, hcode]
          · rw [hAllocList_fst, List.append_assoc]
            exact ⟨_, rfl⟩
          · have h1 := hAllocList_read app (h ++ [Token.code 101])
            have h2 : readAll (h ++ [Token.code 101] ++ app) (pyInsert1 h.length ids)
                = some (pyInsert1 (Token.code 101) cur) :=
              readAll_extend (readAll_insert1 (readAll_extend hread [Token.code 101])
                (hGet_concat h (Token.code 101))) app
            rw [hAllocList_fst] at h1 ⊢
            exact readAll_concat h2 h1

theorem hClStageResp_corr (orig : List Token) (s : Settings) (h : List Token)
    (ids : List Nat) (cur : List Token) (hread : readAll h ids = some cur)
    (res : Except PErr (List Token)) : clStageResp orig s cur = res →
    (match res with
     | .error e => hClStageResp orig s h ids = .error e
     | .ok t1 => ∃ h₁ ids₁, hClStageResp orig s h ids = .ok (h₁, ids₁) ∧
         (∃ ext, h₁ = h ++ ext) ∧ readAll h₁ ids₁ = some t1) := by
  intro hres
  have hreadc : ∀ (c : Token),
      readAll (h ++ [c]) (ids ++ [h.length]) = some (cur ++ [c]) := by
    intro c
    refine readAll_concat (readAll_extend hread [c]) ?_
    show readAll (h ++ [c]) [h.length] = some [c]
    simp only [readAll, hGet_concat h c]
  unfold clStageResp at hres
  cases hraw : rawB orig with
  | true =>
    simp only [hraw, reduceIte] at hres
    subst hres
    refine ⟨h, ids, ?_, ⟨[], (List.append_nil h).symm⟩, hread⟩
    simp only [hClStageResp, hraw, reduceIte]
  | false =>
    simp only [hraw, Bool.false_eq_true, if_false] at hres
    cases hcl : getHeader ("Content-Length") (headersOf orig) s with
    | error e =>
      simp only [hcl] at hres
      subst hres
      show hClStageResp orig s h ids = .error e
      simp only [hClStageResp, hraw, Bool.false_eq_true, if_false, hcl]
    | ok found =>
      cases found with
      | some f =>
        simp only [hcl] at hres
        subst hres
        refine ⟨h, ids, ?_, ⟨[], (List.append_nil h).symm⟩, hread⟩
        simp only [hClStageResp, hraw, Bool.false_eq_true, if_false, hcl]
      | none =>
        simp only [hcl] at hres
        cases hbody : bodyTok orig with
        | none =>
          simp only [hbody] at hres
          subst hres
          refine ⟨h ++ [Token.header (mkVL ("Content-Length")) (mkVL (pyNatStr 0))],
            ids ++ [h.length], ?_, ⟨_, rfl⟩, hreadc _⟩
          simp only [hClStageResp, hraw, Bool.false_eq_true, if_false, hcl, hbody]
        | some bt =>
          obtain ⟨bv, rfl⟩ := bodyTok_shape hbody
          simp only [hbody] at hres
          cases hgen : bv.get_generator s with
          | error e =>
            simp only [hgen] at hres
            subst hres
            show hClStageResp orig s h ids = .error e
            simp only [hClStageResp, hraw, Bool.false_eq_true, if_false, hcl,
              hbody, hgen]
          | ok g =>
            simp only [hgen] at hres
            subst hres
            refine ⟨h ++ [Token.header (mkVL ("Content-Length"))
                (mkVL (pyNatStr g.glen))],
              ids ++ [h.length], ?_, ⟨_, rfl⟩, hreadc _⟩
            simp only [hClStageResp, hraw, Bool.false_eq_true, if_false, hcl,
              hbody, hgen]

/-- C10.  `resolve` does not mutate its receiver.  On the token-object heap,
a successful heap-level `Response.resolve` only extends the heap: every cell
of the original message — in particular an action cell with a symbolic
offset — is unchanged, so the receiver still reads back its original tokens,
while the returned reference list reads back exactly the functional
`resolve` result (actions resolved on fresh copies, synthesized tokens in
fresh cells). -/
theorem c10_resolve_no_mutation (s : Settings) (h h₂ : List Token)
    (ids ids₂ : List Nat) (ts : List Token)
    (hread : readAll h ids = some ts)
    (hres : hResolveResp s h ids = .ok (h₂, ids₂)) :
    (∃ ext, h₂ = h ++ ext) ∧
    readAll h₂ ids = some ts ∧
    (∃ r, Response.resolve ⟨ts⟩ s = .ok r ∧ readAll h₂ ids₂ = some r.tokens) := by
  unfold hResolveResp at hres
  simp only [hread] at hres
  cases hw : wsStageResp ts s ts with
  | error e =>
    have hc : hWsStageResp ts s h ids = .error e :=
      hWsStageResp_corr ts s h ids ts hread _ hw
    rw [hc] at hres
    cases hres
  | ok t1 =>
    have hc : ∃ h₁ ids₁, hWsStageResp ts s h ids = .ok (h₁, ids₁) ∧
        (∃ ext, h₁ = h ++ ext) ∧ readAll h₁ ids₁ = some t1 :=
      hWsStageResp_corr ts s h ids ts hread _ hw
    obtain ⟨h₁, ids₁, hh1, ⟨ext₁, hext₁⟩, hr1⟩ := hc
    simp only [hh1] at hres
    cases hc2 : clStageResp ts s t1 with
    | error e =>
      have hd : hClStageResp ts s h₁ ids₁ = .error e :=
        hClStageResp_corr ts s h₁ ids₁ t1 hr1 _ hc2
      rw [hd] at hres
      cases hres
    | ok t2 =>
      have hd : ∃ hB idsB, hClStageResp ts s h₁ ids₁ = .ok (hB, idsB) ∧
          (∃ ext, hB = h₁ ++ ext) ∧ readAll hB idsB = some t2 :=
        hClStageResp_corr ts s h₁ ids₁ t1 hr1 _ hc2
      obtain ⟨hB, idsB, hhB, ⟨ext₂, hext₂⟩, hrB⟩ := hd
      simp only [hhB, hrB] at hres
      cases hm : mapME (resolveTok (lengthOf (responseValues t2 s)) s) t2 with
      | error e =>
        have hmc : hMapResolve (lengthOf (responseValues t2 s)) s hB idsB = .error e :=
          hMapResolve_corr _ s idsB hB t2 hrB _ hm
        rw [hmc] at hres
        cases hres
      | ok rts =>
        have hmc : ∃ h' js, hMapResolve (lengthOf (responseValues t2 s)) s hB idsB
              = .ok (h', js) ∧
            (∃ ext, h' = hB ++ ext) ∧ readAll h' js = some rts :=
          hMapResolve_corr _ s idsB hB t2 hrB _ hm
        obtain ⟨h', js, hh', ⟨ext₃, hext₃⟩, hrjs⟩ := hmc
        rw [hh'] at hres
        cases hres
        have hframe : ∃ ext, h₂ = h ++ ext := by
          refine ⟨ext₁ ++ (ext₂ ++ ext₃), ?_⟩
          rw [hext₃, hext₂, hext₁, List.append_assoc, List.append_assoc]
        refine ⟨hframe, ?_, ⟨⟨rts⟩, ?_, hrjs⟩⟩
        · obtain ⟨ext, hext⟩ := hframe
          rw [hext]
          exact readAll_extend hread ext
        · unfold Response.resolve
          simp only [hw, hc2, hm]

/-- C10, witness: a concrete two-cell heap — `200` with a random-offset
disconnect.  Resolution extends the heap by the synthesized Content-Length
cell and the resolved action copy; cell 1 still holds the symbolic offset
`r`, and the returned references read exactly the functional `resolve`
result. -/
theorem c10_resolve_no_mutation_witness :
    (∃ ext, [Token.code 200, Token.disconnectAt (.r),
        Token.header (Value.lit ("Content-Length")) (Value.lit ("0")),
        Token.disconnectAt (.num 0)]
      = [Token.code 200, Token.disconnectAt (.r)] ++ ext) ∧
    readAll [Token.code 200, Token.disconnectAt (.r),
        Token.header (Value.lit ("Content-Length")) (Value.lit ("0")),
        Token.disconnectAt (.num 0)] [0, 1]
      = some [Token.code 200, Token.disconnectAt (.r)] ∧
    (∃ r, Response.resolve ⟨[Token.code 200, Token.disconnectAt (.r)]⟩ cS = .ok r ∧
      readAll [Token.code 200, Token.disconnectAt (.r),
        Token.header (Value.lit ("Content-Length")) (Value.lit ("0")),
        Token.disconnectAt (.num 0)] [0, 3, 2] = some r.tokens) :=
  c10_resolve_no_mutation cS
    [Token.code 200, Token.disconnectAt (.r)]
    [Token.code 200, Token.disconnectAt (.r),
      Token.header (Value.lit ("Content-Length")) (Value.lit ("0")),
      Token.disconnectAt (.num 0)]
    [0, 1] [0, 3, 2]
    [Token.code 200, Token.disconnectAt (.r)]
    (by decide) (by decide)

end Pathod
